import Mathlib

/-!
# Verification of the `html-allowlist` sanitizer core

This development embeds the policy-driven HTML filtering engine of
`src/sanitize.node.ts` (rule compilation, budgeted tag enforcement,
attribute / CSS / URL filtering, bounded convergence loop, final
general-sanitizer pass) and proves properties of the embedding.

External collaborators (the HTML tree parser/serializer, the CSS
parser/serializer `postcss`/`postcss-value-parser`, and the general
sanitizer DOMPurify) are, per the specification, outside the engine:
only their interfaces are fixed.  They are modelled as follows and each
modelled definition carries a doc comment saying so:

* documents are carried as element trees directly (the parser/serializer
  pair is taken to be mutually inverse, so "text" = tree);
* CSS appearing inside documents is carried in parsed form
  (stylesheets as lists of at-rules/rules/comments, declarations as
  property/value string pairs);
* a `url(...)` call inside a CSS value is modelled as a case-insensitive
  occurrence of the substring `url(`;
* the general sanitizer keeps exactly the elements whose tag is in its
  allowed-tag set (dropping `script`/`style` subtrees, unwrapping other
  disallowed tags) and the attributes whose name is in its
  allowed-attribute set;
* JavaScript's `String.prototype.toLowerCase` is modelled by ASCII
  lower-casing, and strings are compared by their code points.
-/

/-- Code point of an ASCII control character, as removed by the source's
character class `[\u0000-\u001F\u007F]`. -/
def isCtlNat (n : Nat) : Bool := n ≤ 0x1F || n = 0x7F

/-- Code point matched by JavaScript's `\s` (ECMAScript WhiteSpace and
LineTerminator productions). -/
def isJsWsNat (n : Nat) : Bool :=
  n = 9 || n = 10 || n = 11 || n = 12 || n = 13 || n = 32 ||
  n = 0xA0 || n = 0x1680 || (0x2000 ≤ n && n ≤ 0x200A) ||
  n = 0x2028 || n = 0x2029 || n = 0x202F || n = 0x205F || n = 0x3000 || n = 0xFEFF

/-- JS whitespace test on characters. -/
def isJsWsChar (c : Char) : Bool := isJsWsNat c.toNat

/-- ASCII lower-casing of one code point (model of `toLowerCase`). -/
def lowerNat (n : Nat) : Nat := if 65 ≤ n ∧ n ≤ 90 then n + 32 else n

/-- ASCII lower-casing of one character (model of `toLowerCase`). -/
def lowerChar (c : Char) : Char :=
  if 65 ≤ c.toNat ∧ c.toNat ≤ 90 then Char.ofNat (c.toNat + 32) else c

/-- ASCII lower-casing of a string (model of `String.prototype.toLowerCase`). -/
def lowerStr (s : String) : String := ⟨s.data.map lowerChar⟩

/-- Trimming of a character list: drop JS whitespace from both ends
(model of `String.prototype.trim`). -/
def jsTrimList (l : List Char) : List Char :=
  List.rdropWhile isJsWsChar (l.dropWhile isJsWsChar)

/-- Trimming of a string (model of `String.prototype.trim`). -/
def jsTrim (s : String) : String := ⟨jsTrimList s.data⟩

theorem toNat_lowerChar (c : Char) :
    (lowerChar c).toNat = lowerNat c.toNat := by
  unfold lowerChar lowerNat
  split
  · next h =>
    have hv : (c.toNat + 32).isValidChar := by
      left
      have := h.2
      omega
    simp only [Char.ofNat, hv, dite_true, dif_pos]
    simp [Char.ofNatAux, Char.toNat, UInt32.toNat]
  · next h => simp [h]

theorem char_eq_of_toNat_eq {a b : Char} (h : a.toNat = b.toNat) : a = b := by
  apply Char.eq_of_val_eq
  exact UInt32.ext h

theorem lowerChar_lowerChar (c : Char) : lowerChar (lowerChar c) = lowerChar c := by
  apply char_eq_of_toNat_eq
  rw [toNat_lowerChar, toNat_lowerChar]
  unfold lowerNat
  split
  · next h => simp; omega
  · rfl

theorem isJsWsChar_lowerChar (c : Char) : isJsWsChar (lowerChar c) = isJsWsChar c := by
  unfold isJsWsChar
  rw [toNat_lowerChar]
  unfold lowerNat
  split
  · next h =>
    have h1 := h.1
    have h2 := h.2
    have e1 : isJsWsNat (c.toNat + 32) = false := by
      unfold isJsWsNat
      simp
      omega
    have e2 : isJsWsNat c.toNat = false := by
      unfold isJsWsNat
      simp
      omega
    rw [e1, e2]
  · rfl

theorem lowerStr_lowerStr (s : String) : lowerStr (lowerStr s) = lowerStr s := by
  unfold lowerStr
  simp only [List.map_map]
  congr 1
  apply List.map_congr_left
  intro c _
  exact lowerChar_lowerChar c

theorem jsTrimList_prefix_dropWhile (l : List Char) :
    jsTrimList l <+: l.dropWhile isJsWsChar :=
  List.rdropWhile_prefix _ _

theorem jsTrimList_idempotent (l : List Char) : jsTrimList (jsTrimList l) = jsTrimList l := by
  unfold jsTrimList
  have hpre := List.rdropWhile_prefix isJsWsChar (l.dropWhile isJsWsChar)
  have h1 : List.dropWhile isJsWsChar
      (List.rdropWhile isJsWsChar (l.dropWhile isJsWsChar)) =
      List.rdropWhile isJsWsChar (l.dropWhile isJsWsChar) := by
    rw [List.dropWhile_eq_self_iff]
    intro hl
    have hlen : 0 < (l.dropWhile isJsWsChar).length :=
      Nat.lt_of_lt_of_le hl hpre.length_le
    have hget := hpre.getElem hl
    have := List.dropWhile_get_zero_not isJsWsChar l hlen
    simpa [List.get_eq_getElem, hget] using this
  rw [h1]
  exact List.rdropWhile_idempotent _ _

theorem jsTrim_idempotent (s : String) : jsTrim (jsTrim s) = jsTrim s := by
  unfold jsTrim
  simp [jsTrimList_idempotent]

/-! ## URL danger check (`isDangerousUrl`, `decodeNumericCharacterReferences`)

The source operates on JavaScript strings.  To stay faithful on every
code point (including ones Lean's `Char` cannot carry, such as decoded
surrogates) the pipeline below works on lists of code points (`Nat`);
`String` inputs enter through `strCodes`. -/

/-- Code points of a Lean string. -/
def strCodes (s : String) : List Nat := s.data.map Char.toNat

/-- Hexadecimal-digit code point, the character class `[0-9a-fA-F]` of the
source regex. -/
def isHexDigitNat (n : Nat) : Bool :=
  (48 ≤ n && n ≤ 57) || (97 ≤ n && n ≤ 102) || (65 ≤ n && n ≤ 70)

/-- Decimal-digit code point. -/
def isDecDigitNat (n : Nat) : Bool := 48 ≤ n && n ≤ 57

/-- Value of one hexadecimal digit code point. -/
def hexDigitVal (n : Nat) : Nat :=
  if n ≤ 57 then n - 48 else if n ≤ 70 then n - 55 else n - 87

/-- Value of a run of hexadecimal digit code points (model of
`parseInt(run, 16)` on a non-empty all-hex string). -/
def hexRunVal (l : List Nat) : Nat := l.foldl (fun a d => a * 16 + hexDigitVal d) 0

/-- Model of `parseInt(raw, 10)` on a string of hexadecimal-digit
characters: the value of the leading decimal digits, `none` (NaN) when
the first character is not a decimal digit. -/
def decLeadingVal (l : List Nat) : Option Nat :=
  let ds := l.takeWhile isDecDigitNat
  if ds.isEmpty then none else some (ds.foldl (fun a d => a * 10 + (d - 48)) 0)

/-- After the literal `&#`, match the rest of the source regex
`(x?[0-9a-fA-F]+);?`: returns the captured group `raw` (with the
optional leading `x`), the consumed optional semicolon, and the
remaining input.  A leading `x` that is not followed by a hexadecimal
digit backtracks to the `x?`-empty alternative, which then fails on the
non-hex `x` itself. -/
def hexRunSplit (l : List Nat) : Option (List Nat × List Nat × List Nat) :=
  if (l.takeWhile isHexDigitNat).isEmpty then none
  else
    match l.drop (l.takeWhile isHexDigitNat).length with
    | 59 :: rem => some (l.takeWhile isHexDigitNat, [59], rem)
    | after => some (l.takeWhile isHexDigitNat, [], after)

def refMatch (rest : List Nat) : Option (List Nat × List Nat × List Nat) :=
  match rest with
  | 120 :: r2 =>
    match hexRunSplit r2 with
    | some (run, semi, rem) => some (120 :: run, semi, rem)
    | none => hexRunSplit rest
  | _ => hexRunSplit rest

/-- Numeric value of a captured reference body: hexadecimal when it
starts with `x`, otherwise `parseInt(raw, 10)` (`none` = NaN). -/
def refVal (raw : List Nat) : Option Nat :=
  match raw with
  | 120 :: run => some (hexRunVal run)
  | _ => decLeadingVal raw

theorem hexRunSplit_length {l run semi rem : List Nat}
    (h : hexRunSplit l = some (run, semi, rem)) :
    rem.length < l.length := by
  unfold hexRunSplit at h
  split at h
  · exact absurd h (by simp)
  · next hne =>
    have hrun : ¬ (l.takeWhile isHexDigitNat).length = 0 := by
      intro h0
      exact hne (by simpa [List.isEmpty_iff, List.length_eq_zero] using h0)
    have htake : (l.takeWhile isHexDigitNat).length ≤ l.length :=
      (List.takeWhile_sublist _).length_le
    have hdrop : (l.drop (l.takeWhile isHexDigitNat).length).length =
        l.length - (l.takeWhile isHexDigitNat).length := List.length_drop _ _
    split at h
    · next rem' heq =>
      cases h
      have : (59 :: rem).length = l.length - (l.takeWhile isHexDigitNat).length := by
        rw [← heq]; exact hdrop
      simp only [List.length_cons] at this
      omega
    · next heq2 =>
      cases h
      omega

theorem refMatch_length {rest raw semi rem : List Nat}
    (h : refMatch rest = some (raw, semi, rem)) : rem.length < rest.length := by
  unfold refMatch at h
  split at h
  · next r2 =>
    split at h
    · next run semi' rem' hh =>
      cases h
      have := hexRunSplit_length hh
      simp only [List.length_cons]
      omega
    · exact hexRunSplit_length h
  · exact hexRunSplit_length h

/-- One global pass of the source regex replace in
`decodeNumericCharacterReferences`: scan for `&#`, match
`(x?[0-9a-fA-F]+);?`, compute `parseInt` (hex when the capture starts
with `x`, else decimal), keep the match verbatim when the value is NaN
or above `0x10FFFF`, otherwise substitute the code point; scanning
resumes after each match. -/
def decodeNCRAux : Nat → List Nat → List Nat
  | 0, l => l
  | _ + 1, [] => []
  | fuel + 1, 38 :: 35 :: rest =>
    (match refMatch rest with
    | none => 38 :: decodeNCRAux fuel (35 :: rest)
    | some (raw, semi, rem) =>
      match refVal raw with
      | none => 38 :: 35 :: (raw ++ semi ++ decodeNCRAux fuel rem)
      | some v =>
        if v ≤ 0x10FFFF then v :: decodeNCRAux fuel rem
        else 38 :: 35 :: (raw ++ semi ++ decodeNCRAux fuel rem))
  | fuel + 1, c :: rest => c :: decodeNCRAux fuel rest

def decodeNCR (l : List Nat) : List Nat := decodeNCRAux l.length l

/-- `decodeNumericCharacterReferences` of the source, on the code points
of a string (the result stays a code-point list because decoding can
produce lone surrogates, which JavaScript strings carry). -/
def decodeNumericCharacterReferences (s : String) : List Nat :=
  decodeNCR (strCodes s)

/-- The `compact` step of `isDangerousUrl`: remove ASCII control
characters and whitespace (`replace(/[\u0000-\u001F\u007F\s]+/g, "")`),
then lower-case. -/
def compactLower (l : List Nat) : List Nat :=
  (l.filter (fun n => !(isCtlNat n || isJsWsNat n))).map lowerNat

/-- `isDangerousUrl` of the source at the code-point level. -/
def isDangerousCodes (l : List Nat) : Bool :=
  (strCodes "javascript:").isPrefixOf (compactLower (decodeNCR l)) ||
  (strCodes "data:").isPrefixOf (compactLower (decodeNCR l))

/-- `isDangerousUrl` of the source. -/
def isDangerousUrl (s : String) : Bool := isDangerousCodes (strCodes s)

/-- Trimming of a code-point list by JS whitespace (for `srcset` entries). -/
def trimNatList (l : List Nat) : List Nat :=
  List.rdropWhile isJsWsNat (l.dropWhile isJsWsNat)

/-- `isDangerousSrcset` of the source: split on commas, take each
entry's leading whitespace-delimited token, flag if any non-empty token
is dangerous. -/
def isDangerousSrcset (l : List Nat) : Bool :=
  (l.splitOn 44).any (fun entry =>
    let urlPart := (trimNatList entry).takeWhile (fun n => !isJsWsNat n)
    !urlPart.isEmpty && isDangerousCodes urlPart)

/-- `isDangerousUrlValue` of the source. -/
def isDangerousUrlValue (name : String) (value : String) : Bool :=
  if name = "srcset" then isDangerousSrcset (strCodes value)
  else isDangerousUrl value

/-! ### The URL claim as written, and as amended

`claim…` definitions follow the specification sentence verbatim: a
numeric character reference is `&#NN;` (decimal digits) or `&#xHH;`
(hexadecimal digits), with the trailing semicolon required.
`amended…` definitions follow the amended sentence: the semicolon is
optional and a reference without `x` reads the leading decimal digits
of a maximal run of hexadecimal-digit characters. -/

/-- Value of a run of decimal digit code points. -/
def decRunVal (l : List Nat) : Nat := l.foldl (fun a d => a * 10 + (d - 48)) 0

/-- Claim-side reference matcher: requires the trailing semicolon, and
decimal digits (not hex-digit characters) after a bare `&#`. -/
def claimRefMatch (rest : List Nat) : Option (Nat × List Nat) :=
  match rest with
  | 120 :: r2 =>
    if (r2.takeWhile isHexDigitNat).isEmpty then none
    else
      match r2.drop (r2.takeWhile isHexDigitNat).length with
      | 59 :: rem =>
        if hexRunVal (r2.takeWhile isHexDigitNat) ≤ 0x10FFFF then
          some (hexRunVal (r2.takeWhile isHexDigitNat), rem)
        else none
      | _ => none
  | _ =>
    if (rest.takeWhile isDecDigitNat).isEmpty then none
    else
      match rest.drop (rest.takeWhile isDecDigitNat).length with
      | 59 :: rem =>
        if decRunVal (rest.takeWhile isDecDigitNat) ≤ 0x10FFFF then
          some (decRunVal (rest.takeWhile isDecDigitNat), rem)
        else none
      | _ => none

theorem claimRefMatch_length {rest : List Nat} {v : Nat} {rem : List Nat}
    (h : claimRefMatch rest = some (v, rem)) : rem.length < rest.length := by
  unfold claimRefMatch at h
  split at h
  · next r2 =>
    split at h
    · exact absurd h (by simp)
    · split at h
      · next rem' heq =>
        split at h
        · cases h
          have hd : (59 :: rem).length =
              r2.length - (r2.takeWhile isHexDigitNat).length := by
            rw [← heq]; exact List.length_drop _ _
          simp only [List.length_cons] at hd
          simp only [List.length_cons]
          omega
        · cases h
      · cases h
  · split at h
    · exact absurd h (by simp)
    · next hne =>
      have hrun : ¬ (rest.takeWhile isDecDigitNat).length = 0 := by
        intro h0
        exact hne (by simpa [List.isEmpty_iff, List.length_eq_zero] using h0)
      have htake : (rest.takeWhile isDecDigitNat).length ≤ rest.length :=
        (List.takeWhile_sublist _).length_le
      split at h
      · next rem' heq =>
        split at h
        · cases h
          have hd : (59 :: rem).length =
              rest.length - (rest.takeWhile isDecDigitNat).length := by
            rw [← heq]; exact List.length_drop _ _
          simp only [List.length_cons] at hd
          omega
        · cases h
      · cases h

/-- Claim-side decoder: replace every `&#NN;` / `&#xHH;` (semicolon
required) by its character. -/
def claimDecodeAux : Nat → List Nat → List Nat
  | 0, l => l
  | _ + 1, [] => []
  | fuel + 1, 38 :: 35 :: rest =>
    (match claimRefMatch rest with
    | some (v, rem) => v :: claimDecodeAux fuel rem
    | none => 38 :: claimDecodeAux fuel (35 :: rest))
  | fuel + 1, c :: rest => c :: claimDecodeAux fuel rest

def claimDecode (l : List Nat) : List Nat := claimDecodeAux l.length l

/-- The property claimed of the URL danger check, with the decode step
read exactly as written (`&#NN;`, `&#xHH;`). -/
def claimDangerousUrl (s : String) : Bool :=
  (strCodes "javascript:").isPrefixOf (compactLower (claimDecode (strCodes s))) ||
  (strCodes "data:").isPrefixOf (compactLower (claimDecode (strCodes s)))

/-- Amended-side reference matcher: after `&#`, an optional `x` and a
maximal non-empty run of hexadecimal-digit characters with an optional
trailing semicolon; the value is hexadecimal after `x` and otherwise
read from the run's leading decimal digits.  Returns the decoded code
point (`none` when the value is unreadable or above `0x10FFFF`, so the
text is kept) and the number of consumed code points. -/
def amendedBody (rest : List Nat) : Option (Option Nat × Nat) :=
  if rest.head? = some 120 then
    if (rest.tail.takeWhile isHexDigitNat).isEmpty then none
    else
      some (
        (if hexRunVal (rest.tail.takeWhile isHexDigitNat) ≤ 0x10FFFF then
          some (hexRunVal (rest.tail.takeWhile isHexDigitNat))
        else none),
        1 + (rest.tail.takeWhile isHexDigitNat).length +
          (if (rest.tail.drop (rest.tail.takeWhile isHexDigitNat).length).head? = some 59
            then 1 else 0))
  else
    if (rest.takeWhile isHexDigitNat).isEmpty then none
    else
      some (
        (match (rest.takeWhile isHexDigitNat).takeWhile isDecDigitNat with
        | [] => none
        | ds => if decRunVal ds ≤ 0x10FFFF then some (decRunVal ds) else none),
        (rest.takeWhile isHexDigitNat).length +
          (if (rest.drop (rest.takeWhile isHexDigitNat).length).head? = some 59
            then 1 else 0))

/-- Amended-side decoder. -/
def amendedDecodeAux : Nat → List Nat → List Nat
  | 0, l => l
  | _ + 1, [] => []
  | fuel + 1, 38 :: 35 :: rest =>
    (match amendedBody rest with
    | some (some v, k) => v :: amendedDecodeAux fuel (rest.drop k)
    | some (none, k) => 38 :: 35 :: (rest.take k ++ amendedDecodeAux fuel (rest.drop k))
    | none => 38 :: amendedDecodeAux fuel (35 :: rest))
  | fuel + 1, c :: rest => c :: amendedDecodeAux fuel rest

def amendedDecode (l : List Nat) : List Nat := amendedDecodeAux l.length l

/-- The amended claim's full pipeline for the URL danger check. -/
def amendedDangerousUrl (s : String) : Bool :=
  (strCodes "javascript:").isPrefixOf (compactLower (amendedDecode (strCodes s))) ||
  (strCodes "data:").isPrefixOf (compactLower (amendedDecode (strCodes s)))

theorem take_takeWhile_length (p : Nat → Bool) (l : List Nat) :
    l.take (l.takeWhile p).length = l.takeWhile p :=
  (List.prefix_iff_eq_take.mp (List.takeWhile_prefix p)).symm

theorem hexRunSplit_some_parts {l run semi rem : List Nat}
    (h : hexRunSplit l = some (run, semi, rem)) :
    run = l.takeWhile isHexDigitNat ∧ run.isEmpty = false ∧
    semi = (if (l.drop run.length).head? = some 59 then [59] else []) ∧
    l.drop run.length = semi ++ rem := by
  unfold hexRunSplit at h
  split at h
  · exact absurd h (by simp)
  · next hne =>
    split at h
    · next rem' heq =>
      cases h
      refine ⟨rfl, by simpa using hne, ?_, by simp [heq]⟩
      rw [heq]
      simp
    · next hnot =>
      cases h
      refine ⟨rfl, by simpa using hne, ?_, by simp⟩
      split
      · next h59 =>
        exfalso
        cases hd : l.drop (l.takeWhile isHexDigitNat).length with
        | nil => rw [hd] at h59; simp at h59
        | cons a rest2 =>
          rw [hd] at h59
          simp at h59
          subst h59
          exact hnot rest2 hd
      · rfl

theorem hexRunSplit_none {l : List Nat}
    (h : hexRunSplit l = none) : (l.takeWhile isHexDigitNat).isEmpty = true := by
  unfold hexRunSplit at h
  split at h
  · next he => exact he
  · split at h <;> cases h

/-- The replacement decision on one matched reference: the decoded code
point, or `none` when the matched text is kept. -/
def refKeepVal (raw : List Nat) : Option Nat :=
  match refVal raw with
  | none => none
  | some v => if v ≤ 0x10FFFF then some v else none

theorem isHexDigitNat_120 : isHexDigitNat 120 = false := by decide

theorem refMatch_none_amendedBody {rest : List Nat}
    (h : refMatch rest = none) : amendedBody rest = none := by
  unfold refMatch at h
  split at h
  · next r2 =>
    split at h
    · cases h
    · next hh =>
      have he : (r2.takeWhile isHexDigitNat).isEmpty = true := hexRunSplit_none hh
      unfold amendedBody
      simp [he]
  · next hno120 =>
    have he : (rest.takeWhile isHexDigitNat).isEmpty = true := hexRunSplit_none h
    have hhd : rest.head? ≠ some 120 := by
      intro hcon
      cases rest with
      | nil => simp at hcon
      | cons a t =>
        simp at hcon
        subst hcon
        exact hno120 t rfl
    unfold amendedBody
    simp [hhd, he]

theorem refMatch_some_amendedBody {rest raw semi rem : List Nat}
    (h : refMatch rest = some (raw, semi, rem)) :
    amendedBody rest = some (refKeepVal raw, raw.length + semi.length) ∧
    rest.take (raw.length + semi.length) = raw ++ semi ∧
    rest.drop (raw.length + semi.length) = rem := by
  unfold refMatch at h
  split at h
  · next r2 =>
    split at h
    · next run semi' rem' hh =>
      cases h
      obtain ⟨hrun, hne, hsemi, hdrop⟩ := hexRunSplit_some_parts hh
      subst hrun
      have hval : refKeepVal (120 :: List.takeWhile isHexDigitNat r2) =
          (if hexRunVal (List.takeWhile isHexDigitNat r2) ≤ 0x10FFFF then
            some (hexRunVal (List.takeWhile isHexDigitNat r2)) else none) := by
        unfold refKeepVal
        have hr : refVal (120 :: List.takeWhile isHexDigitNat r2) =
            some (hexRunVal (List.takeWhile isHexDigitNat r2)) := rfl
        rw [hr]
      have hsemiLen : semi.length =
          (if (r2.drop (List.takeWhile isHexDigitNat r2).length).head? = some 59
            then 1 else 0) := by
        rw [hsemi]
        split <;> rfl
      refine ⟨?_, ?_, ?_⟩
      · unfold amendedBody
        simp only [List.head?_cons, List.tail_cons, reduceIte, hne,
          Bool.false_eq_true, if_false, ite_false]
        rw [hval]
        refine congrArg some ?_
        refine Prod.ext rfl ?_
        show 1 + (List.takeWhile isHexDigitNat r2).length +
            (if (r2.drop (List.takeWhile isHexDigitNat r2).length).head? = some 59
              then 1 else 0) =
          (120 :: List.takeWhile isHexDigitNat r2).length + semi.length
        rw [hsemiLen, List.length_cons]
        omega
      · have htk : r2.take (List.takeWhile isHexDigitNat r2).length =
            List.takeWhile isHexDigitNat r2 := take_takeWhile_length _ _
        have htk2 : r2.take ((List.takeWhile isHexDigitNat r2).length + semi.length) =
            List.takeWhile isHexDigitNat r2 ++ semi := by
          rw [List.take_add, htk, hdrop, List.take_left]
        have hlen : (120 :: List.takeWhile isHexDigitNat r2).length + semi.length =
            ((List.takeWhile isHexDigitNat r2).length + semi.length) + 1 := by
          rw [List.length_cons]
          omega
        rw [hlen]
        simp only [List.take_succ_cons]
        rw [htk2]
        rfl
      · have hdr : r2.drop ((List.takeWhile isHexDigitNat r2).length + semi.length) = rem := by
          rw [← List.drop_drop, hdrop, List.drop_left]
        have hlen : (120 :: List.takeWhile isHexDigitNat r2).length + semi.length =
            ((List.takeWhile isHexDigitNat r2).length + semi.length) + 1 := by
          rw [List.length_cons]
          omega
        rw [hlen]
        simp only [List.drop_succ_cons]
        exact hdr
    · next hh =>
      exfalso
      have hz : hexRunSplit (120 :: r2) = none := by
        unfold hexRunSplit
        simp [List.takeWhile_cons, isHexDigitNat_120]
      rw [hz] at h
      cases h
  · next hno120 =>
    obtain ⟨hrun, hne, hsemi, hdrop⟩ := hexRunSplit_some_parts h
    have hhd : rest.head? ≠ some 120 := by
      intro hcon
      cases rest with
      | nil => simp at hcon
      | cons a t =>
        simp at hcon
        subst hcon
        exact hno120 t rfl
    have hsemiLen : semi.length = (if (rest.drop raw.length).head? = some 59 then 1 else 0) := by
      rw [hsemi]
      split <;> rfl
    have hnraw : refVal raw = decLeadingVal raw := by
      unfold refVal
      split
      · next run =>
        exfalso
        have h1 : (120 :: run) <+: rest := by
          rw [hrun]
          exact List.takeWhile_prefix _
        obtain ⟨u, hu⟩ := h1
        apply hhd
        rw [← hu]
        rfl
      · rfl
    have hval : refKeepVal raw =
        (match raw.takeWhile isDecDigitNat with
        | [] => none
        | ds => if decRunVal ds ≤ 0x10FFFF then some (decRunVal ds) else none) := by
      rw [refKeepVal, hnraw]
      unfold decLeadingVal decRunVal
      cases hds : raw.takeWhile isDecDigitNat with
      | nil => simp [hds]
      | cons d ds2 => simp [hds]
    refine ⟨?_, ?_, ?_⟩
    · unfold amendedBody
      rw [if_neg hhd]
      rw [← hrun]
      simp only [hne, Bool.false_eq_true, if_false, ite_false]
      rw [hval, hsemiLen]
    · have htk : rest.take raw.length = raw := by
        rw [hrun]
        exact take_takeWhile_length _ _
      rw [List.take_add, htk, hdrop, List.take_left]
    · rw [← List.drop_drop, hdrop, List.drop_left]

theorem decodeNCRAux_amp_none {fuel : Nat} {rest : List Nat} (hm : refMatch rest = none) :
    decodeNCRAux (fuel + 1) (38 :: 35 :: rest) = 38 :: decodeNCRAux fuel (35 :: rest) := by
  rw [decodeNCRAux]
  split
  · rfl
  · next heq =>
    rw [hm] at heq
    cases heq

theorem decodeNCRAux_amp_keep {fuel : Nat} {rest raw semi rem : List Nat}
    (hm : refMatch rest = some (raw, semi, rem)) (hk : refKeepVal raw = none) :
    decodeNCRAux (fuel + 1) (38 :: 35 :: rest) =
      38 :: 35 :: (raw ++ semi ++ decodeNCRAux fuel rem) := by
  rw [decodeNCRAux]
  split
  · next heq =>
    rw [hm] at heq
    cases heq
  · next raw' semi' rem' heq =>
    rw [hm] at heq
    cases heq
    cases hv : refVal raw with
    | none => simp only [hv]
    | some v =>
      simp only [hv]
      unfold refKeepVal at hk
      rw [hv] at hk
      have hk2 : (if v ≤ 0x10FFFF then some v else none) = (none : Option Nat) := hk
      split at hk2
      · cases hk2
      · next hgt =>
        simp only [if_neg hgt]

theorem decodeNCRAux_amp_decode {fuel : Nat} {rest raw semi rem : List Nat} {v : Nat}
    (hm : refMatch rest = some (raw, semi, rem)) (hk : refKeepVal raw = some v) :
    decodeNCRAux (fuel + 1) (38 :: 35 :: rest) = v :: decodeNCRAux fuel rem := by
  rw [decodeNCRAux]
  split
  · next heq =>
    rw [hm] at heq
    cases heq
  · next raw' semi' rem' heq =>
    rw [hm] at heq
    cases heq
    cases hv : refVal raw with
    | none =>
      exfalso
      unfold refKeepVal at hk
      rw [hv] at hk
      cases hk
    | some w =>
      simp only [hv]
      unfold refKeepVal at hk
      rw [hv] at hk
      have hk2 : (if w ≤ 0x10FFFF then some w else none) = some v := hk
      split at hk2
      · next hle =>
        cases hk2
        simp only [if_pos hle]
      · cases hk2

theorem decodeNCRAux_cons {fuel c : Nat} {rest : List Nat}
    (h : ∀ r2, c = 38 → rest = 35 :: r2 → False) :
    decodeNCRAux (fuel + 1) (c :: rest) = c :: decodeNCRAux fuel rest := by
  rw [decodeNCRAux.eq_def]
  split
  · next heq => cases heq
  · next heq => cases heq
  · next rest2 heq1 heq2 =>
    exfalso
    cases heq2
    exact h rest2 rfl rfl
  · next heq1 heq2 =>
    cases heq2
    have hf : fuel + 1 = Nat.succ fuel := rfl
    congr 2
    omega

theorem amendedDecodeAux_amp_none {fuel : Nat} {rest : List Nat}
    (hb : amendedBody rest = none) :
    amendedDecodeAux (fuel + 1) (38 :: 35 :: rest) =
      38 :: amendedDecodeAux fuel (35 :: rest) := by
  rw [amendedDecodeAux]
  rw [hb]

theorem amendedDecodeAux_amp_keep {fuel : Nat} {rest : List Nat} {k : Nat}
    (hb : amendedBody rest = some (none, k)) :
    amendedDecodeAux (fuel + 1) (38 :: 35 :: rest) =
      38 :: 35 :: (rest.take k ++ amendedDecodeAux fuel (rest.drop k)) := by
  rw [amendedDecodeAux]
  rw [hb]

theorem amendedDecodeAux_amp_decode {fuel : Nat} {rest : List Nat} {v k : Nat}
    (hb : amendedBody rest = some (some v, k)) :
    amendedDecodeAux (fuel + 1) (38 :: 35 :: rest) =
      v :: amendedDecodeAux fuel (rest.drop k) := by
  rw [amendedDecodeAux]
  rw [hb]

theorem amendedDecodeAux_cons {fuel c : Nat} {rest : List Nat}
    (h : ∀ r2, c = 38 → rest = 35 :: r2 → False) :
    amendedDecodeAux (fuel + 1) (c :: rest) = c :: amendedDecodeAux fuel rest := by
  rw [amendedDecodeAux.eq_def]
  split
  · next heq => cases heq
  · next heq => cases heq
  · next rest2 heq1 heq2 =>
    exfalso
    cases heq2
    exact h rest2 rfl rfl
  · next heq1 heq2 =>
    cases heq2
    congr 2
    omega

/-- The source decoder and the amended-description decoder agree at
every fuel level. -/
theorem decodeNCRAux_eq_amendedDecodeAux (fuel : Nat) :
    ∀ l, decodeNCRAux fuel l = amendedDecodeAux fuel l := by
  induction fuel with
  | zero => intro l; rfl
  | succ f ih =>
    intro l
    rcases l with _ | ⟨c1, _ | ⟨c2, rest⟩⟩
    · rfl
    · by_cases h1 : c1 = 38
      · subst h1
        rw [decodeNCRAux_cons (by intro r2 _ hr; cases hr),
          amendedDecodeAux_cons (by intro r2 _ hr; cases hr), ih]
      · rw [decodeNCRAux_cons (by intro r2 hc _; exact h1 hc),
          amendedDecodeAux_cons (by intro r2 hc _; exact h1 hc), ih]
    · by_cases h12 : c1 = 38 ∧ c2 = 35
      · obtain ⟨h1, h2⟩ := h12
        subst h1
        subst h2
        cases hm : refMatch rest with
        | none =>
          rw [decodeNCRAux_amp_none hm,
            amendedDecodeAux_amp_none (refMatch_none_amendedBody hm), ih]
        | some t =>
          obtain ⟨raw, semi, rem⟩ := t
          obtain ⟨hb, htake, hdrop⟩ := refMatch_some_amendedBody hm
          cases hk : refKeepVal raw with
          | none =>
            rw [hk] at hb
            rw [decodeNCRAux_amp_keep hm hk, amendedDecodeAux_amp_keep hb,
              htake, hdrop, ih]
          | some v =>
            rw [hk] at hb
            rw [decodeNCRAux_amp_decode hm hk, amendedDecodeAux_amp_decode hb,
              hdrop, ih]
      · have hno : ∀ r2, c1 = 38 → (c2 :: rest) = 35 :: r2 → False := by
          intro r2 hc1 hr
          apply h12
          constructor
          · exact hc1
          · cases hr
            rfl
        rw [decodeNCRAux_cons hno, amendedDecodeAux_cons hno, ih]

/-- The source decoder and the amended-description decoder agree. -/
theorem decodeNCR_eq_amendedDecode (l : List Nat) : decodeNCR l = amendedDecode l :=
  decodeNCRAux_eq_amendedDecodeAux l.length l

/-- C3 (counterexample): the URL danger check does not coincide with the
claimed description.  On `"javascript&#58x"` the source decodes the
semicolon-less reference `&#58` to `:` and flags the value as dangerous,
while the claimed pipeline (references written `&#NN;` / `&#xHH;`, with
the trailing semicolon) decodes nothing, leaving a string that does not
start with `javascript:`. -/
theorem isDangerousUrl_claim_counterexample :
    isDangerousUrl "javascript&#58x" = true ∧
    claimDangerousUrl "javascript&#58x" = false := by
  constructor
  · decide
  · decide

/-- C3 (amended): the URL danger check classifies a string as dangerous
iff the string, after first decoding numeric character references —
`&#`, an optional `x`, then a maximal non-empty run of
hexadecimal-digit characters and an optional trailing semicolon, read
as hexadecimal after `x` and otherwise by the run's leading decimal
digits (the text is kept when there are none or the value exceeds
`0x10FFFF`) — to literal characters, then removing every ASCII control
character and every whitespace character anywhere in the string, then
lower-casing, starts with `"javascript:"` or starts with `"data:"`. -/
theorem isDangerousUrl_amended_spec (s : String) :
    isDangerousUrl s = true ↔ amendedDangerousUrl s = true := by
  unfold isDangerousUrl isDangerousCodes amendedDangerousUrl
  rw [decodeNCR_eq_amendedDecode]

/-! ## Policy compilation (`compileRules`) -/

/-- `SanitizerConfig` of the source; absent fields are `none` and take
their defaults (`?? false` / `?? 10`) at the use sites, as in the
source. -/
structure SanitizerConfig where
  allowCommonAttributes : Option Bool := none
  allowJavaScript : Option Bool := none
  maxPasses : Option Int := none
  deriving DecidableEq, Repr

/-- Lookup in an association list (model of `Map.get`). -/
def lookupA {α : Type} (m : List (String × α)) (k : String) : Option α :=
  (m.find? (fun p => p.1 == k)).map (fun p => p.2)

/-- Insert-or-update in an association list (model of `Map.set`:
updating keeps the entry's position, new keys append). -/
def setA {α : Type} (m : List (String × α)) (k : String) (v : α) : List (String × α) :=
  match m with
  | [] => [(k, v)]
  | (k', v') :: rest => if k' = k then (k, v) :: rest else (k', v') :: setA rest k v

/-- Add to the end unless present (model of `Set.add`). -/
def addUniq (l : List String) (x : String) : List String :=
  if x ∈ l then l else l ++ [x]

/-- `CompiledPolicy` of the source.  The JavaScript `Map`s and `Set`s
are carried as association lists / lists in insertion order. -/
structure CompiledPolicy where
  tagCounts : List (String × Nat)
  attrAllowlist : List (String × List String)
  styleAllowlist : List (String × List String)
  config : SanitizerConfig
  deriving DecidableEq, Repr

/-- Split a string on a one-character separator (model of
`String.prototype.split` with a single-character separator). -/
def strSplitOnChar (c : Char) (s : String) : List String :=
  (s.data.splitOn c).map (fun l => ⟨l⟩)

/-- One iteration of the rule loop of `compileRules`. -/
def compileRule
    (acc : List (String × Nat) × List (String × List String) × List (String × List String))
    (rule : String) :
    List (String × Nat) × List (String × List String) × List (String × List String) :=
  match (strSplitOnChar '|' rule).map jsTrim with
  | [t] =>
    let tag := lowerStr t
    if tag = "" then acc
    else (setA acc.1 tag ((lookupA acc.1 tag).getD 0 + 1), acc.2.1, acc.2.2)
  | [t, a] =>
    let tag := lowerStr t
    let attr := lowerStr a
    if tag = "" ∨ attr = "" then acc
    else (acc.1, setA acc.2.1 tag (addUniq ((lookupA acc.2.1 tag).getD []) attr), acc.2.2)
  | [st, sel, pr] =>
    if lowerStr st = "style" then
      let property := lowerStr pr
      if sel = "" ∨ property = "" then acc
      else (acc.1, acc.2.1, setA acc.2.2 sel (addUniq ((lookupA acc.2.2 sel).getD []) property))
    else acc
  | _ => acc

/-- `compileRules` of the source. -/
def compileRules (rules : List String) (config : SanitizerConfig) : CompiledPolicy :=
  let res := rules.foldl compileRule ([], [], [])
  ⟨res.1, res.2.1, res.2.2, config⟩

/-! ## CSS filtering (`filterCss`, `filterInlineStyle`, `isSafeCssValue`)

CSS is carried in parsed form: the CSS parser/serializer is an external
collaborator (spec §6(b)), so a stylesheet is a list of at-rules, style
rules (selector list plus declarations/comments) and comments, and a
declaration is an original-text property/value string pair. -/

inductive CssRuleNode where
  | decl (prop value : String)
  | comment (text : String)
  deriving DecidableEq, Repr

inductive CssItem where
  | styleRule (selectors : List String) (nodes : List CssRuleNode)
  | atRule (text : String)
  | comment (text : String)
  deriving DecidableEq, Repr

/-- The claim side's literal predicate (used only to state C5's
counterexample, not a model of the source): the value contains the
characters `url(` as a case-insensitive substring. -/
def claimUrlSubstring (v : String) : Bool :=
  ((lowerStr v).data).tails.any (fun t => "url(".data.isPrefixOf t)

/-- Word-breaking characters of the external CSS value tokenizer
(modelled collaborator, spec §6(b)): the separators that end an
identifier word.  Everything else extends the word. -/
def isCssDelimChar (c : Char) : Bool :=
  c == ' ' || c == '\t' || c == '\n' || c == '\r' || c == '\x0c' ||
  c == ')' || c == ',' || c == '/' || c == ':'

mutual
/-- Modelled collaborator (spec §6(b); the walk inside `isSafeCssValue`,
source lines 476–486): scan of the external value parser's token
stream for a function node whose name lower-cases to `url`.  A
function node is an identifier word immediately followed by `(`, and
the walk descends into nested functions; quoted text is a string
token, never a function, and a backslash escapes the next character
inside a string.  `word` holds the identifier run read so far, most
recent character first. -/
def urlFnScan (word : List Char) : List Char → Bool
  | [] => false
  | c :: rest =>
    if c = '(' then
      if word.reverse.map lowerChar = ['u', 'r', 'l'] then true
      else urlFnScan [] rest
    else if c = '"' ∨ c = '\'' then urlFnStr c rest
    else if isCssDelimChar c then urlFnScan [] rest
    else urlFnScan (c :: word) rest
/-- String-token state of the scan: skip to the closing quote. -/
def urlFnStr (q : Char) : List Char → Bool
  | [] => false
  | c :: rest =>
    if c = '\\' then
      match rest with
      | [] => false
      | _ :: rest2 => urlFnStr q rest2
    else if c = q then urlFnScan [] rest
    else urlFnStr q rest
end

/-- `isSafeCssValue` of the source: no `url(...)` function call at any
nesting depth in the parsed value (the value parser itself is an
external collaborator, modelled by `urlFnScan`). -/
def isSafeCssValue (value : String) : Bool := !urlFnScan [] value.data

/-- The declaration filter inside `filterCss`: keep declarations whose
normalized property is allowed and whose value is safe, dropping
comments. -/
def filterCssDecls (allowedProps : List String) (nodes : List CssRuleNode) :
    List CssRuleNode :=
  nodes.filterMap (fun n =>
    match n with
    | .comment _ => none
    | .decl prop value =>
      if lowerStr (jsTrim prop) ∈ allowedProps ∧ isSafeCssValue value then
        some (CssRuleNode.decl prop value)
      else none)

/-- `filterCss` of the source over parsed stylesheets: delete every
at-rule; for each style rule keep the trimmed selectors present in the
allowlist and rebuild, per surviving selector in order, a rule holding
only its allowed, `url()`-free declarations; drop rules with no
surviving declarations; top-level comments pass through. -/
def filterCss (styleAllowlist : List (String × List String)) (root : List CssItem) :
    List CssItem :=
  root.flatMap (fun item =>
    match item with
    | .atRule _ => []
    | .comment c => [CssItem.comment c]
    | .styleRule selectors nodes =>
      ((selectors.map jsTrim).filter
        (fun sel => (lookupA styleAllowlist sel).isSome)).filterMap (fun sel =>
        if (filterCssDecls ((lookupA styleAllowlist sel).getD []) nodes).isEmpty then none
        else some (CssItem.styleRule [sel]
          (filterCssDecls ((lookupA styleAllowlist sel).getD []) nodes))))

/-- Serialization of a rule node (modelled collaborator, spec §6(b)). -/
def ruleNodeToString : CssRuleNode → String
  | .decl p v => p ++ ":" ++ v
  | .comment c => "/*" ++ c ++ "*/"

/-- Serialization of a stylesheet item (modelled collaborator, §6(b)). -/
def cssItemToString : CssItem → String
  | .styleRule sels nodes =>
    String.intercalate "," sels ++ "\x7b" ++
      String.intercalate ";" (nodes.map ruleNodeToString) ++ "\x7d"
  | .atRule t => t
  | .comment c => "/*" ++ c ++ "*/"

/-- Serialization of a stylesheet (modelled collaborator, §6(b)). -/
def cssToString (s : List CssItem) : String := String.join (s.map cssItemToString)

/-- Split a character list at the first `:` (for declaration parsing). -/
def splitFirstColon (l : List Char) : Option (List Char × List Char) :=
  match l with
  | [] => none
  | c :: rest =>
    if c = ':' then some ([], rest)
    else (splitFirstColon rest).map (fun p => (c :: p.1, p.2))

/-- Modelled collaborator (spec §6(b)): parse of one inline declaration
block (`postcss.parse` of `a{value}` followed by reading the rule's
declarations): split on `;`, skip blank pieces, fail — like the
caught `CssSyntaxError` — when a non-blank piece has no colon; trim
each property and value. -/
def parseDeclList (value : String) : Option (List (String × String)) :=
  (strSplitOnChar ';' value).foldr (fun piece acc =>
    match acc with
    | none => none
    | some ds =>
      if jsTrim piece = "" then some ds
      else
        match splitFirstColon piece.data with
        | none => none
        | some (p, v) => some ((jsTrim ⟨p⟩, jsTrim ⟨v⟩) :: ds)) (some [])

/-- The allowed inline property set: the wildcard entry plus the tag's
entry of the style allowlist. -/
def inlineAllowedProps (styleAllowlist : List (String × List String))
    (tag : String) : List String :=
  ((lookupA styleAllowlist "*").getD []) ++ ((lookupA styleAllowlist tag).getD [])

/-- `filterInlineStyle` of the source: allowed properties are the
wildcard entry plus the tag's entry; parse failure or nothing surviving
yields the empty string; surviving declarations re-serialize as
`prop:value` joined by `;` with the property normalized and the value
trimmed. -/
def filterInlineStyle (tag : String) (value : String)
    (styleAllowlist : List (String × List String)) : String :=
  if (inlineAllowedProps styleAllowlist tag).isEmpty then ""
  else
    match parseDeclList value with
    | none => ""
    | some ds =>
      String.intercalate ";" (ds.filterMap (fun d =>
        if lowerStr (jsTrim d.1) ∈ inlineAllowedProps styleAllowlist tag ∧
            isSafeCssValue d.2 then
          some (lowerStr (jsTrim d.1) ++ ":" ++ jsTrim d.2)
        else none))

/-! ## Attribute filtering (`filterAttributes`) -/

/-- `COMMON_ATTRS` of the source. -/
def COMMON_ATTRS : List (String × List String) :=
  [("a", ["href", "title", "target", "rel"]),
   ("img", ["src", "alt", "title", "width", "height"]),
   ("html", ["lang"])]

/-- `COMMON_GLOBAL_ATTRS` of the source. -/
def COMMON_GLOBAL_ATTRS : List String := ["class", "id"]

/-- `STRUCTURAL_TAGS` of the source. -/
def STRUCTURAL_TAGS : List String := ["html", "head", "body"]

/-- `URL_ATTRS` of the source. -/
def URL_ATTRS : List String :=
  ["href", "src", "xlink:href", "action", "formaction", "poster", "srcset",
   "data", "codebase", "archive", "cite", "longdesc", "usemap", "background",
   "profile", "icon", "manifest"]

/-- Model of `String.prototype.startsWith`. -/
def strStartsWith (s pre : String) : Bool := pre.data.isPrefixOf s.data

/-- The computed allowed attribute-name set for a tag: the
rule-declared names plus, when `allowCommonAttributes` is on, the
global defaults and the tag's fixed defaults. -/
def allowedAttrsFor (attrAllowlist : List (String × List String))
    (allowCommonAttributes : Bool) (tag : String) : List String :=
  let base := (lookupA attrAllowlist tag).getD []
  if allowCommonAttributes then
    base ++ COMMON_GLOBAL_ATTRS ++ ((lookupA COMMON_ATTRS tag).getD [])
  else base

/-- `filterAttributes` of the source, as a function on the element's
attribute list (the DOM loop removes or rewrites each attribute
independently). -/
def filterAttributes (attrAllowlist styleAllowlist : List (String × List String))
    (allowCommonAttributes allowJavaScript : Bool) (tag : String)
    (attrs : List (String × String)) : List (String × String) :=
  attrs.filterMap (fun a =>
    if ¬allowJavaScript ∧ strStartsWith (lowerStr a.1) "on" then none
    else if lowerStr a.1 ∉ allowedAttrsFor attrAllowlist allowCommonAttributes tag then
      none
    else if lowerStr a.1 = "style" then
      (if (filterInlineStyle tag a.2 styleAllowlist).length = 0 then none
       else some (a.1, filterInlineStyle tag a.2 styleAllowlist))
    else if ¬allowJavaScript ∧ lowerStr a.1 ∈ URL_ATTRS then
      (if isDangerousUrlValue (lowerStr a.1) a.2 then none else some (a.1, a.2))
    else some (a.1, a.2))

/-! ## Documents

Modelled from the spec (§1, §6(a)): the HTML tree parser/serializer is
an external collaborator, so a document is carried as a forest of
element trees directly — the parse/serialize pair is taken to be
mutually inverse, and byte-identical text corresponds to equal forests.
CSS text inside a document (the content of `<style>`) is carried in
parsed form (§6(b)). -/

inductive Node where
  | elem (tag : String) (attrs : List (String × String)) (children : List Node)
  | text (s : String)
  | cssText (sheet : List CssItem)

mutual
def nodeBeq : Node → Node → Bool
  | .elem t1 a1 c1, .elem t2 a2 c2 => t1 == t2 && a1 == a2 && nodesBeq c1 c2
  | .text s1, .text s2 => s1 == s2
  | .cssText s1, .cssText s2 => s1 == s2
  | _, _ => false
def nodesBeq : List Node → List Node → Bool
  | [], [] => true
  | x :: xs, y :: ys => nodeBeq x y && nodesBeq xs ys
  | _, _ => false
end

mutual
theorem nodeBeq_iff : ∀ a b : Node, nodeBeq a b = true ↔ a = b
  | .elem t1 a1 c1, .elem t2 a2 c2 => by
    simp [nodeBeq, nodesBeq_iff c1 c2]
    tauto
  | .elem _ _ _, .text _ => by simp [nodeBeq]
  | .elem _ _ _, .cssText _ => by simp [nodeBeq]
  | .text _, .elem _ _ _ => by simp [nodeBeq]
  | .text s1, .text s2 => by simp [nodeBeq]
  | .text _, .cssText _ => by simp [nodeBeq]
  | .cssText _, .elem _ _ _ => by simp [nodeBeq]
  | .cssText _, .text _ => by simp [nodeBeq]
  | .cssText s1, .cssText s2 => by simp [nodeBeq]
theorem nodesBeq_iff : ∀ a b : List Node, nodesBeq a b = true ↔ a = b
  | [], [] => by simp [nodesBeq]
  | [], _ :: _ => by simp [nodesBeq]
  | _ :: _, [] => by simp [nodesBeq]
  | x :: xs, y :: ys => by
    simp [nodesBeq, nodeBeq_iff x y, nodesBeq_iff xs ys]
end

instance : DecidableEq Node := fun a b =>
  decidable_of_iff (nodeBeq a b = true) (nodeBeq_iff a b)

mutual
/-- Number of elements with the given (lower-cased) tag in a subtree. -/
def nodeCountTag (t : String) : Node → Nat
  | .elem tg _ ch => (if lowerStr tg = t then 1 else 0) + forestCountTag t ch
  | .text _ => 0
  | .cssText _ => 0
def forestCountTag (t : String) : List Node → Nat
  | [] => 0
  | n :: rest => nodeCountTag t n + forestCountTag t rest
end

mutual
/-- The CSS carried in a subtree, in document order: model of
`element.textContent` on a `<style>` element followed by
`postcss.parse` (§6(a)/(b)). -/
def nodeCss : Node → List CssItem
  | .elem _ _ ch => forestCss ch
  | .text _ => []
  | .cssText s => s
def forestCss : List Node → List CssItem
  | [] => []
  | n :: rest => nodeCss n ++ forestCss rest
end

/-! ## Tag enforcement (one filtering pass of `sanitizeOnceWithPolicy`) -/

/-- The per-pass read-only data computed at the top of
`sanitizeOnceWithPolicy` (lines 110–118 of the source). -/
structure PassEnv where
  tagCounts : List (String × Nat)
  attrAllowlist : List (String × List String)
  styleAllowlist : List (String × List String)
  allowCommonAttributes : Bool
  allowJavaScript : Bool
  allowStyleTag : Bool
  totalAllowedTags : Nat
  deriving DecidableEq, Repr

def mkPassEnv (policy : CompiledPolicy) : PassEnv :=
  { tagCounts := policy.tagCounts
    attrAllowlist := policy.attrAllowlist
    styleAllowlist := policy.styleAllowlist
    allowCommonAttributes := policy.config.allowCommonAttributes.getD false
    allowJavaScript := policy.config.allowJavaScript.getD false
    allowStyleTag := ((lookupA policy.tagCounts "style").getD 0 > 0) ∧
      ¬ policy.styleAllowlist.isEmpty
    totalAllowedTags := policy.tagCounts.foldl
      (fun acc e => if e.1 ∈ STRUCTURAL_TAGS then acc else acc + e.2) 0 }

/-- `PassState` of the spec: the pass's per-tag used counters, running
total and saturation flag. -/
structure PassState where
  usedTagCounts : List (String × Nat)
  usedTotalTags : Nat
  countsSaturated : Bool
  deriving DecidableEq, Repr

/-- `filterStyleElement` of the source, given the style element's
filtered attribute list and its CSS content: remove the element when
the filtered stylesheet serializes to blank, else replace its content. -/
def filterStyleElement (env : PassEnv) (t : String) (attrs2 : List (String × String))
    (content : List CssItem) : List Node :=
  if (jsTrim (cssToString (filterCss env.styleAllowlist content))).length = 0 then []
  else [Node.elem t attrs2 [Node.cssText (filterCss env.styleAllowlist content)]]

/-- The attribute filter applied by the pass, with the environment's
allowlists and flags. -/
def enfAttrs (env : PassEnv) (tag : String) (attrs : List (String × String)) :
    List (String × String) :=
  filterAttributes env.attrAllowlist env.styleAllowlist env.allowCommonAttributes
    env.allowJavaScript tag attrs

/-- The state update when an element is kept (source lines 169–175):
increment the tag's used counter and the running total, then raise the
saturation flag when the total reaches the sum of budgets. -/
def enfKeepState (env : PassEnv) (st : PassState) (tag : String) : PassState :=
  if st.usedTotalTags + 1 ≥ env.totalAllowedTags then
    ⟨setA st.usedTagCounts tag ((lookupA st.usedTagCounts tag).getD 0 + 1),
      st.usedTotalTags + 1, true⟩
  else
    ⟨setA st.usedTagCounts tag ((lookupA st.usedTagCounts tag).getD 0 + 1),
      st.usedTotalTags + 1, st.countsSaturated⟩

mutual
/-- The body of the element loop of `sanitizeOnceWithPolicy`
(lines 132–183): pre-order enforcement.  Removal drops the subtree
(its nodes are disconnected and never reprocessed), unwrapping splices
the processed children in place, kept elements have their attributes
filtered; the per-tag counters, the running total and the saturation
flag thread through in document order.  A kept `<style>` element's
content is filtered and its old children are replaced (so, as in the
DOM, they are disconnected and never processed as elements). -/
def enfNode (env : PassEnv) (st : PassState) : Node → PassState × List Node
  | .text s => (st, [.text s])
  | .cssText sheet => (st, [.cssText sheet])
  | .elem t attrs children =>
    if ¬env.allowJavaScript ∧ lowerStr t = "script" then (st, [])
    else if lowerStr t = "style" ∧ ¬env.allowStyleTag then (st, [])
    else if lowerStr t ∈ STRUCTURAL_TAGS then
      ((enfForest env st children).1,
        [.elem t (enfAttrs env (lowerStr t) attrs) (enfForest env st children).2])
    else if st.countsSaturated then
      (if (lookupA env.tagCounts (lowerStr t)).getD 0 = 0 then enfForest env st children
       else (st, []))
    else if (lookupA env.tagCounts (lowerStr t)).getD 0 = 0 then
      enfForest env st children
    else if (lookupA st.usedTagCounts (lowerStr t)).getD 0 ≥
        (lookupA env.tagCounts (lowerStr t)).getD 0 then (st, [])
    else if lowerStr t = "style" then
      (enfKeepState env st (lowerStr t),
        filterStyleElement env t (enfAttrs env (lowerStr t) attrs) (forestCss children))
    else
      ((enfForest env (enfKeepState env st (lowerStr t)) children).1,
        [.elem t (enfAttrs env (lowerStr t) attrs)
          (enfForest env (enfKeepState env st (lowerStr t)) children).2])
def enfForest (env : PassEnv) (st : PassState) : List Node → PassState × List Node
  | [] => (st, [])
  | n :: rest =>
    ((enfForest env (enfNode env st n).1 rest).1,
      (enfNode env st n).2 ++ (enfForest env (enfNode env st n).1 rest).2)
end

/-! ## Defense-in-depth pass (`applyDomPurify`) -/

/-- The allowed-tag set handed to the external sanitizer: the budgeted
tags plus the structural tags, minus `script` when JavaScript is
disallowed. -/
def purifyAllowedTags (policy : CompiledPolicy) : List String :=
  let base := (policy.tagCounts.map Prod.fst) ++ STRUCTURAL_TAGS
  if policy.config.allowJavaScript.getD false then base
  else base.filter (fun t => t ≠ "script")

/-- The allowed-attribute set handed to the external sanitizer: the
union of all declared attribute sets, plus the common defaults when
enabled. -/
def purifyAllowedAttrs (policy : CompiledPolicy) : List String :=
  let base := policy.attrAllowlist.flatMap Prod.snd
  if policy.config.allowCommonAttributes.getD false then
    base ++ COMMON_GLOBAL_ATTRS ++ COMMON_ATTRS.flatMap Prod.snd
  else base

mutual
/-- Modelled from the spec (§4.7, §6(c)): the external general
sanitizer keeps elements whose tag is allowed (filtering their
attributes by name against the allowed-attribute set), drops
`script`/`style` subtrees wholesale, and keeps the content of other
disallowed elements. -/
def purifyNode (allowedTags allowedAttrs : List String) : Node → List Node
  | .text s => [.text s]
  | .cssText sheet => [.cssText sheet]
  | .elem t attrs ch =>
    if lowerStr t ∈ allowedTags then
      [.elem t (attrs.filter (fun a => lowerStr a.1 ∈ allowedAttrs))
        (purifyForest allowedTags allowedAttrs ch)]
    else if lowerStr t = "script" ∨ lowerStr t = "style" then []
    else purifyForest allowedTags allowedAttrs ch
def purifyForest (allowedTags allowedAttrs : List String) : List Node → List Node
  | [] => []
  | n :: rest =>
    purifyNode allowedTags allowedAttrs n ++ purifyForest allowedTags allowedAttrs rest
end

/-- `applyDomPurify` of the source (the external sanitizer itself is
modelled from the spec, see `purifyNode`). -/
def applyDomPurify (doc : List Node) (policy : CompiledPolicy) : List Node :=
  purifyForest (purifyAllowedTags policy) (purifyAllowedAttrs policy) doc

/-- `sanitizeOnceWithPolicy` of the source: one full filtering pass
(tag enforcement with attribute and CSS filtering) followed by the
defense-in-depth pass. -/
def sanitizeOnceWithPolicy (doc : List Node) (policy : CompiledPolicy) : List Node :=
  let env := mkPassEnv policy
  let st0 : PassState := ⟨[], 0, env.totalAllowedTags = 0⟩
  applyDomPurify (enfForest env st0 doc).2 policy

/-- The bounded convergence loop of `sanitizeWithPolicy`: up to the
given number of passes, stopping as soon as a pass returns its input. -/
def sanitizePasses (policy : CompiledPolicy) : Nat → List Node → List Node
  | 0, current => current
  | n + 1, current =>
    let next := sanitizeOnceWithPolicy current policy
    if next = current then next else sanitizePasses policy n next

/-- `sanitizeWithPolicy` of the source. -/
def sanitizeWithPolicy (doc : List Node) (policy : CompiledPolicy) : List Node :=
  sanitizePasses policy (policy.config.maxPasses.getD 10).toNat doc

/-- `sanitize` of the source. -/
def sanitize (doc : List Node) (rules : List String) (config : SanitizerConfig) :
    List Node :=
  sanitizeWithPolicy doc (compileRules rules config)

/-! ## The convergence loop -/

theorem sanitizePasses_exists_iterate (policy : CompiledPolicy) :
    ∀ n (doc : List Node), ∃ k, k ≤ n ∧
      sanitizePasses policy n doc = (fun d => sanitizeOnceWithPolicy d policy)^[k] doc ∧
      (k < n →
        sanitizeOnceWithPolicy (sanitizePasses policy n doc) policy =
          sanitizePasses policy n doc) := by
  intro n
  induction n with
  | zero =>
    intro doc
    exact ⟨0, Nat.le_refl 0, rfl, by omega⟩
  | succ n ih =>
    intro doc
    by_cases h : sanitizeOnceWithPolicy doc policy = doc
    · refine ⟨0, Nat.zero_le _, ?_, ?_⟩
      · show (if sanitizeOnceWithPolicy doc policy = doc then
          sanitizeOnceWithPolicy doc policy else _) = _
        rw [if_pos h, h]
        rfl
      · intro _
        have hr : sanitizePasses policy (n + 1) doc = doc := by
          show (if sanitizeOnceWithPolicy doc policy = doc then
            sanitizeOnceWithPolicy doc policy else _) = _
          rw [if_pos h, h]
        rw [hr]
        exact h
    · obtain ⟨k, hk, heq, hst⟩ := ih (sanitizeOnceWithPolicy doc policy)
      have hr : sanitizePasses policy (n + 1) doc =
          sanitizePasses policy n (sanitizeOnceWithPolicy doc policy) := by
        show (if sanitizeOnceWithPolicy doc policy = doc then
          sanitizeOnceWithPolicy doc policy else _) = _
        rw [if_neg h]
      refine ⟨k + 1, by omega, ?_, ?_⟩
      · rw [hr, heq, Function.iterate_succ_apply]
      · intro hlt
        rw [hr]
        exact hst (by omega)

theorem sanitizePasses_first_stable (policy : CompiledPolicy) :
    ∀ n (doc : List Node) j, j < n →
      sanitizeOnceWithPolicy ((fun d => sanitizeOnceWithPolicy d policy)^[j] doc) policy =
        (fun d => sanitizeOnceWithPolicy d policy)^[j] doc →
      (∀ i, i < j →
        sanitizeOnceWithPolicy ((fun d => sanitizeOnceWithPolicy d policy)^[i] doc) policy ≠
          (fun d => sanitizeOnceWithPolicy d policy)^[i] doc) →
      sanitizePasses policy n doc = (fun d => sanitizeOnceWithPolicy d policy)^[j] doc := by
  intro n
  induction n with
  | zero => intro doc j hj; omega
  | succ n ih =>
    intro doc j hj hstab hmin
    cases j with
    | zero =>
      simp only [Function.iterate_zero, id] at hstab
      show (if sanitizeOnceWithPolicy doc policy = doc then
        sanitizeOnceWithPolicy doc policy else _) = _
      rw [if_pos hstab, hstab]
      rfl
    | succ i =>
      have hne : sanitizeOnceWithPolicy doc policy ≠ doc := by
        have := hmin 0 (Nat.succ_pos i)
        simpa using this
      have hr : sanitizePasses policy (n + 1) doc =
          sanitizePasses policy n (sanitizeOnceWithPolicy doc policy) := by
        show (if sanitizeOnceWithPolicy doc policy = doc then
          sanitizeOnceWithPolicy doc policy else _) = _
        rw [if_neg hne]
      rw [hr]
      have := ih (sanitizeOnceWithPolicy doc policy) i (by omega)
        (by rw [← Function.iterate_succ_apply]; exact hstab)
        (by
          intro i2 hi2
          rw [← Function.iterate_succ_apply]
          exact hmin (i2 + 1) (by omega))
      rw [this, ← Function.iterate_succ_apply]

theorem sanitizePasses_ceiling (policy : CompiledPolicy) :
    ∀ n (doc : List Node),
      (∀ j, j < n →
        sanitizeOnceWithPolicy ((fun d => sanitizeOnceWithPolicy d policy)^[j] doc) policy ≠
          (fun d => sanitizeOnceWithPolicy d policy)^[j] doc) →
      sanitizePasses policy n doc = (fun d => sanitizeOnceWithPolicy d policy)^[n] doc := by
  intro n
  induction n with
  | zero => intro doc _; rfl
  | succ n ih =>
    intro doc h
    have hne : sanitizeOnceWithPolicy doc policy ≠ doc := by
      have := h 0 (Nat.succ_pos n)
      simpa using this
    have hr : sanitizePasses policy (n + 1) doc =
        sanitizePasses policy n (sanitizeOnceWithPolicy doc policy) := by
      show (if sanitizeOnceWithPolicy doc policy = doc then
        sanitizeOnceWithPolicy doc policy else _) = _
      rw [if_neg hne]
    rw [hr, Function.iterate_succ_apply]
    apply ih
    intro j hj
    rw [← Function.iterate_succ_apply]
    exact h (j + 1) (by omega)

/-- C8: the one-shot form equals the two-phase form: for every document,
rule list and config, `sanitize(html, rules, config)` equals
`sanitizeWithPolicy(html, compileRules(rules, config))`. -/
theorem sanitize_eq_two_phase (doc : List Node) (rules : List String)
    (config : SanitizerConfig) :
    sanitize doc rules config = sanitizeWithPolicy doc (compileRules rules config) := rfl

/-- C10: when the policy's `config.maxPasses` is zero or negative,
`sanitizeWithPolicy` returns its input unchanged — no filtering pass
runs and the defense-in-depth external sanitizer is never applied. -/
theorem sanitizeWithPolicy_nonpos_maxPasses (doc : List Node) (policy : CompiledPolicy)
    (m : Int) (hm : policy.config.maxPasses = some m) (hle : m ≤ 0) :
    sanitizeWithPolicy doc policy = doc := by
  unfold sanitizeWithPolicy
  rw [hm]
  have h0 : (Option.some m).getD (10 : Int) = m := rfl
  rw [h0]
  have ht : m.toNat = 0 := Int.toNat_of_nonpos hle
  rw [ht]
  rfl

/-- Witness for C10 at a concrete document and policy. -/
theorem sanitizeWithPolicy_nonpos_maxPasses_witness :
    sanitizeWithPolicy [Node.elem "div" [] [Node.text "x"]]
      (compileRules ["a"] ⟨none, none, some 0⟩) = [Node.elem "div" [] [Node.text "x"]] :=
  sanitizeWithPolicy_nonpos_maxPasses _ _ 0 rfl (by decide)

/-- C7: `sanitizeWithPolicy` applies the single filtering pass at most
`maxPasses` times to the evolving document (the result is some `k`-th
iterate, `k ≤ maxPasses`, and is a fixed point whenever the ceiling was
not needed); it stops and returns the result as soon as a pass output
equals its input (stabilizing first at step `j` returns the `j`-th
iterate); and if the ceiling is reached without stabilizing it returns
the last computed document — a total function, never an error. -/
theorem sanitizeWithPolicy_loop_spec (doc : List Node) (policy : CompiledPolicy) :
    (∃ k, k ≤ (policy.config.maxPasses.getD 10).toNat ∧
      sanitizeWithPolicy doc policy =
        (fun d => sanitizeOnceWithPolicy d policy)^[k] doc ∧
      (k < (policy.config.maxPasses.getD 10).toNat →
        sanitizeOnceWithPolicy (sanitizeWithPolicy doc policy) policy =
          sanitizeWithPolicy doc policy)) ∧
    (∀ j, j < (policy.config.maxPasses.getD 10).toNat →
      sanitizeOnceWithPolicy ((fun d => sanitizeOnceWithPolicy d policy)^[j] doc) policy =
        (fun d => sanitizeOnceWithPolicy d policy)^[j] doc →
      (∀ i, i < j →
        sanitizeOnceWithPolicy ((fun d => sanitizeOnceWithPolicy d policy)^[i] doc) policy ≠
          (fun d => sanitizeOnceWithPolicy d policy)^[i] doc) →
      sanitizeWithPolicy doc policy =
        (fun d => sanitizeOnceWithPolicy d policy)^[j] doc) ∧
    ((∀ j, j < (policy.config.maxPasses.getD 10).toNat →
      sanitizeOnceWithPolicy ((fun d => sanitizeOnceWithPolicy d policy)^[j] doc) policy ≠
        (fun d => sanitizeOnceWithPolicy d policy)^[j] doc) →
      sanitizeWithPolicy doc policy =
        (fun d => sanitizeOnceWithPolicy d policy)^[(policy.config.maxPasses.getD 10).toNat] doc) := by
  refine ⟨?_, ?_, ?_⟩
  · exact sanitizePasses_exists_iterate policy _ doc
  · intro j hj hstab hmin
    exact sanitizePasses_first_stable policy _ doc j hj hstab hmin
  · intro h
    exact sanitizePasses_ceiling policy _ doc h

/-- Witness for C7: on a concrete document that stabilizes after one
pass under a concrete policy, the early-stop clause returns the first
iterate. -/
theorem sanitizeWithPolicy_loop_spec_witness :
    sanitizeWithPolicy [Node.elem "div" [] [Node.text "x"]] (compileRules ["a"] ⟨none, none, none⟩) =
      (fun d => sanitizeOnceWithPolicy d (compileRules ["a"] ⟨none, none, none⟩))^[1]
        [Node.elem "div" [] [Node.text "x"]] :=
  (sanitizeWithPolicy_loop_spec [Node.elem "div" [] [Node.text "x"]]
      (compileRules ["a"] ⟨none, none, none⟩)).2.1 1 (by decide) (by decide)
    (by decide)

/-! ## The style-rule clause of `compileRules` (C9) -/

theorem lowerStr_empty_iff (s : String) : lowerStr s = "" ↔ s = "" := by
  unfold lowerStr
  constructor
  · intro h
    have : s.data.map lowerChar = [] := congrArg String.data h
    have : s.data = [] := by
      cases hd : s.data with
      | nil => rfl
      | cons a t => rw [hd] at this; simp at this
    cases s
    simp_all
  · intro h
    rw [h]
    rfl

theorem compileRule_three (acc : List (String × Nat) × List (String × List String) ×
      List (String × List String)) (r s1 s2 s3 : String)
    (h : (strSplitOnChar '|' r).map jsTrim = [s1, s2, s3]) :
    compileRule acc r =
      (if lowerStr s1 = "style" then
        (if s2 = "" ∨ lowerStr s3 = "" then acc
         else (acc.1, acc.2.1, setA acc.2.2 s2
           (addUniq ((lookupA acc.2.2 s2).getD []) (lowerStr s3))))
      else acc) := by
  unfold compileRule
  rw [h]

/-- C9 (counterexample): a three-segment rule whose first trimmed token
is `"STYLE"` — not exactly `"style"` — still adds the property, because
the source lower-cases the first token before comparing. -/
theorem compileRules_style_claim_counterexample :
    (strSplitOnChar '|' "STYLE|.h|margin").map jsTrim = ["STYLE", ".h", "margin"] ∧
    "STYLE" ≠ "style" ∧
    (compileRules ["STYLE|.h|margin"] ⟨none, none, none⟩).styleAllowlist =
      [(".h", ["margin"])] := by
  refine ⟨by decide, by decide, by decide⟩

/-- C9 (amended): for every rule string that splits on `|` into exactly
three segments, `compileRules` adds the lower-cased property to
`styleAllow` under the selector (case preserved) iff the first trimmed
token lower-cases to `"style"` and the selector and property are
non-empty; such a rule never changes `tagBudget` or `attrAllow`. -/
theorem compileRules_style_rule_amended (r : String) (cfg : SanitizerConfig)
    (s1 s2 s3 : String) (h : (strSplitOnChar '|' r).map jsTrim = [s1, s2, s3]) :
    (compileRules [r] cfg).styleAllowlist =
      (if lowerStr s1 = "style" ∧ s2 ≠ "" ∧ s3 ≠ "" then [(s2, [lowerStr s3])] else []) ∧
    (compileRules [r] cfg).tagCounts = [] ∧
    (compileRules [r] cfg).attrAllowlist = [] := by
  have hc : List.foldl compileRule ([], [], []) [r] = compileRule ([], [], []) r := by
    simp [List.foldl]
  have h3 := compileRule_three ([], [], []) r s1 s2 s3 h
  unfold compileRules
  rw [hc, h3]
  by_cases hst : lowerStr s1 = "style"
  · rw [if_pos hst]
    by_cases hse : s2 = "" ∨ lowerStr s3 = ""
    · rw [if_pos hse]
      have : ¬ (lowerStr s1 = "style" ∧ s2 ≠ "" ∧ s3 ≠ "") := by
        intro hcon
        rcases hse with hse | hse
        · exact hcon.2.1 hse
        · exact hcon.2.2 ((lowerStr_empty_iff s3).mp hse)
      rw [if_neg this]
      exact ⟨rfl, rfl, rfl⟩
    · rw [if_neg hse]
      push_neg at hse
      have : lowerStr s1 = "style" ∧ s2 ≠ "" ∧ s3 ≠ "" :=
        ⟨hst, hse.1, fun hcon => hse.2 (by rw [hcon]; rfl)⟩
      rw [if_pos this]
      exact ⟨rfl, rfl, rfl⟩
  · rw [if_neg hst]
    have : ¬ (lowerStr s1 = "style" ∧ s2 ≠ "" ∧ s3 ≠ "") := fun hcon => hst hcon.1
    rw [if_neg this]
    exact ⟨rfl, rfl, rfl⟩

/-- Witness for C9 (amended) at a concrete rule. -/
theorem compileRules_style_rule_amended_witness :
    (compileRules ["Style| .Header |Margin"] ⟨none, none, none⟩).styleAllowlist =
      (if lowerStr "Style" = "style" ∧ ".Header" ≠ "" ∧ "Margin" ≠ "" then
        [(".Header", [lowerStr "Margin"])] else []) ∧
    (compileRules ["Style| .Header |Margin"] ⟨none, none, none⟩).tagCounts = [] ∧
    (compileRules ["Style| .Header |Margin"] ⟨none, none, none⟩).attrAllowlist = [] :=
  compileRules_style_rule_amended "Style| .Header |Margin" ⟨none, none, none⟩
    "Style" ".Header" "Margin" (by decide)

/-! ## CSS invariants (C5) -/

theorem jsTrimList_within (l : List Char) : jsTrimList l <:+: l := by
  unfold jsTrimList
  have h1 : List.rdropWhile isJsWsChar (l.dropWhile isJsWsChar) <+:
      l.dropWhile isJsWsChar := List.rdropWhile_prefix _ _
  have h2 : l.dropWhile isJsWsChar <:+ l := List.dropWhile_suffix _
  exact List.infix_iff_prefix_suffix.mpr ⟨_, h1, h2⟩

/-- C5 fails as stated: the source flags only `url(...)` function
nodes of the parsed value, so a declaration whose value merely
contains the characters `url(` inside a quoted string survives
filtering.  With `content` allowlisted, `content:"url(x)"` survives
both block-level and inline filtering while its value contains
`url(`. -/
theorem css_filter_claim_counterexample :
    filterCss [(".h", ["content"])]
      [CssItem.styleRule [".h"] [CssRuleNode.decl "content" "\"url(x)\""]] =
      [CssItem.styleRule [".h"] [CssRuleNode.decl "content" "\"url(x)\""]] ∧
    filterInlineStyle "p" "content:\"url(x)\"" [("*", ["content"])] =
      "content:\"url(x)\"" ∧
    claimUrlSubstring "\"url(x)\"" = true := by
  refine ⟨by decide, by decide, by decide⟩

/-! ## Branch lemmas for one enforcement step -/

theorem enfNode_text (env : PassEnv) (st : PassState) (s : String) :
    enfNode env st (.text s) = (st, [.text s]) := rfl

theorem enfNode_cssText (env : PassEnv) (st : PassState) (sheet : List CssItem) :
    enfNode env st (.cssText sheet) = (st, [.cssText sheet]) := rfl

theorem enfNode_script (env : PassEnv) (st : PassState) (t : String)
    (attrs : List (String × String)) (ch : List Node)
    (h : ¬env.allowJavaScript ∧ lowerStr t = "script") :
    enfNode env st (.elem t attrs ch) = (st, []) := by
  unfold enfNode
  rw [if_pos h]

theorem enfNode_styleOff (env : PassEnv) (st : PassState) (t : String)
    (attrs : List (String × String)) (ch : List Node)
    (h1 : ¬(¬env.allowJavaScript ∧ lowerStr t = "script"))
    (h : lowerStr t = "style" ∧ ¬env.allowStyleTag) :
    enfNode env st (.elem t attrs ch) = (st, []) := by
  unfold enfNode
  rw [if_neg h1, if_pos h]

theorem enfNode_structural (env : PassEnv) (st : PassState) (t : String)
    (attrs : List (String × String)) (ch : List Node)
    (h1 : ¬(¬env.allowJavaScript ∧ lowerStr t = "script"))
    (h2 : ¬(lowerStr t = "style" ∧ ¬env.allowStyleTag))
    (h : lowerStr t ∈ STRUCTURAL_TAGS) :
    enfNode env st (.elem t attrs ch) =
      ((enfForest env st ch).1,
        [.elem t (enfAttrs env (lowerStr t) attrs) (enfForest env st ch).2]) := by
  unfold enfNode
  rw [if_neg h1, if_neg h2, if_pos h]

theorem enfNode_sat_unwrap (env : PassEnv) (st : PassState) (t : String)
    (attrs : List (String × String)) (ch : List Node)
    (h1 : ¬(¬env.allowJavaScript ∧ lowerStr t = "script"))
    (h2 : ¬(lowerStr t = "style" ∧ ¬env.allowStyleTag))
    (h3 : lowerStr t ∉ STRUCTURAL_TAGS)
    (h4 : st.countsSaturated = true)
    (h5 : (lookupA env.tagCounts (lowerStr t)).getD 0 = 0) :
    enfNode env st (.elem t attrs ch) = enfForest env st ch := by
  unfold enfNode
  rw [if_neg h1, if_neg h2, if_neg h3, if_pos h4, if_pos h5]

theorem enfNode_sat_remove (env : PassEnv) (st : PassState) (t : String)
    (attrs : List (String × String)) (ch : List Node)
    (h1 : ¬(¬env.allowJavaScript ∧ lowerStr t = "script"))
    (h2 : ¬(lowerStr t = "style" ∧ ¬env.allowStyleTag))
    (h3 : lowerStr t ∉ STRUCTURAL_TAGS)
    (h4 : st.countsSaturated = true)
    (h5 : ¬(lookupA env.tagCounts (lowerStr t)).getD 0 = 0) :
    enfNode env st (.elem t attrs ch) = (st, []) := by
  unfold enfNode
  rw [if_neg h1, if_neg h2, if_neg h3, if_pos h4, if_neg h5]

theorem enfNode_unwrap (env : PassEnv) (st : PassState) (t : String)
    (attrs : List (String × String)) (ch : List Node)
    (h1 : ¬(¬env.allowJavaScript ∧ lowerStr t = "script"))
    (h2 : ¬(lowerStr t = "style" ∧ ¬env.allowStyleTag))
    (h3 : lowerStr t ∉ STRUCTURAL_TAGS)
    (h4 : ¬st.countsSaturated = true)
    (h5 : (lookupA env.tagCounts (lowerStr t)).getD 0 = 0) :
    enfNode env st (.elem t attrs ch) = enfForest env st ch := by
  unfold enfNode
  rw [if_neg h1, if_neg h2, if_neg h3, if_neg h4, if_pos h5]

theorem enfNode_over_budget (env : PassEnv) (st : PassState) (t : String)
    (attrs : List (String × String)) (ch : List Node)
    (h1 : ¬(¬env.allowJavaScript ∧ lowerStr t = "script"))
    (h2 : ¬(lowerStr t = "style" ∧ ¬env.allowStyleTag))
    (h3 : lowerStr t ∉ STRUCTURAL_TAGS)
    (h4 : ¬st.countsSaturated = true)
    (h5 : ¬(lookupA env.tagCounts (lowerStr t)).getD 0 = 0)
    (h6 : (lookupA st.usedTagCounts (lowerStr t)).getD 0 ≥
      (lookupA env.tagCounts (lowerStr t)).getD 0) :
    enfNode env st (.elem t attrs ch) = (st, []) := by
  unfold enfNode
  rw [if_neg h1, if_neg h2, if_neg h3, if_neg h4, if_neg h5, if_pos h6]

theorem enfNode_keep_style (env : PassEnv) (st : PassState) (t : String)
    (attrs : List (String × String)) (ch : List Node)
    (h1 : ¬(¬env.allowJavaScript ∧ lowerStr t = "script"))
    (h2 : ¬(lowerStr t = "style" ∧ ¬env.allowStyleTag))
    (h3 : lowerStr t ∉ STRUCTURAL_TAGS)
    (h4 : ¬st.countsSaturated = true)
    (h5 : ¬(lookupA env.tagCounts (lowerStr t)).getD 0 = 0)
    (h6 : ¬(lookupA st.usedTagCounts (lowerStr t)).getD 0 ≥
      (lookupA env.tagCounts (lowerStr t)).getD 0)
    (h7 : lowerStr t = "style") :
    enfNode env st (.elem t attrs ch) =
      (enfKeepState env st (lowerStr t),
        filterStyleElement env t (enfAttrs env (lowerStr t) attrs) (forestCss ch)) := by
  unfold enfNode
  rw [if_neg h1, if_neg h2, if_neg h3, if_neg h4, if_neg h5, if_neg h6, if_pos h7]

theorem enfNode_keep (env : PassEnv) (st : PassState) (t : String)
    (attrs : List (String × String)) (ch : List Node)
    (h1 : ¬(¬env.allowJavaScript ∧ lowerStr t = "script"))
    (h2 : ¬(lowerStr t = "style" ∧ ¬env.allowStyleTag))
    (h3 : lowerStr t ∉ STRUCTURAL_TAGS)
    (h4 : ¬st.countsSaturated = true)
    (h5 : ¬(lookupA env.tagCounts (lowerStr t)).getD 0 = 0)
    (h6 : ¬(lookupA st.usedTagCounts (lowerStr t)).getD 0 ≥
      (lookupA env.tagCounts (lowerStr t)).getD 0)
    (h7 : ¬lowerStr t = "style") :
    enfNode env st (.elem t attrs ch) =
      ((enfForest env (enfKeepState env st (lowerStr t)) ch).1,
        [.elem t (enfAttrs env (lowerStr t) attrs)
          (enfForest env (enfKeepState env st (lowerStr t)) ch).2]) := by
  unfold enfNode
  rw [if_neg h1, if_neg h2, if_neg h3, if_neg h4, if_neg h5, if_neg h6, if_neg h7]

theorem enfForest_nil (env : PassEnv) (st : PassState) :
    enfForest env st [] = (st, []) := rfl

theorem enfForest_cons (env : PassEnv) (st : PassState) (n : Node) (rest : List Node) :
    enfForest env st (n :: rest) =
      ((enfForest env (enfNode env st n).1 rest).1,
        (enfNode env st n).2 ++ (enfForest env (enfNode env st n).1 rest).2) := by
  rfl

/-- Case analysis on one enforcement step at an element, with the
branch conditions available in each case. -/
theorem enfNode_elem_split (env : PassEnv) (st : PassState) (t : String)
    (attrs : List (String × String)) (ch : List Node)
    (motive : PassState × List Node → Prop)
    (hscript : ¬env.allowJavaScript ∧ lowerStr t = "script" → motive (st, []))
    (hstyleOff : lowerStr t = "style" ∧ ¬env.allowStyleTag → motive (st, []))
    (hstructural : lowerStr t ∈ STRUCTURAL_TAGS →
      motive ((enfForest env st ch).1,
        [.elem t (enfAttrs env (lowerStr t) attrs) (enfForest env st ch).2]))
    (hsatUnwrap : lowerStr t ∉ STRUCTURAL_TAGS → st.countsSaturated = true →
      (lookupA env.tagCounts (lowerStr t)).getD 0 = 0 → motive (enfForest env st ch))
    (hsatRemove : lowerStr t ∉ STRUCTURAL_TAGS → st.countsSaturated = true →
      ¬(lookupA env.tagCounts (lowerStr t)).getD 0 = 0 → motive (st, []))
    (hunwrap : lowerStr t ∉ STRUCTURAL_TAGS → ¬st.countsSaturated = true →
      (lookupA env.tagCounts (lowerStr t)).getD 0 = 0 → motive (enfForest env st ch))
    (hover : lowerStr t ∉ STRUCTURAL_TAGS → ¬st.countsSaturated = true →
      ¬(lookupA env.tagCounts (lowerStr t)).getD 0 = 0 →
      (lookupA st.usedTagCounts (lowerStr t)).getD 0 ≥
        (lookupA env.tagCounts (lowerStr t)).getD 0 → motive (st, []))
    (hkeepStyle : lowerStr t = "style" → env.allowStyleTag →
      lowerStr t ∉ STRUCTURAL_TAGS → ¬st.countsSaturated = true →
      ¬(lookupA env.tagCounts (lowerStr t)).getD 0 = 0 →
      ¬(lookupA st.usedTagCounts (lowerStr t)).getD 0 ≥
        (lookupA env.tagCounts (lowerStr t)).getD 0 →
      motive (enfKeepState env st (lowerStr t),
        filterStyleElement env t (enfAttrs env (lowerStr t) attrs) (forestCss ch)))
    (hkeep : ¬lowerStr t = "style" → lowerStr t ∉ STRUCTURAL_TAGS →
      ¬st.countsSaturated = true →
      ¬(lookupA env.tagCounts (lowerStr t)).getD 0 = 0 →
      ¬(lookupA st.usedTagCounts (lowerStr t)).getD 0 ≥
        (lookupA env.tagCounts (lowerStr t)).getD 0 →
      motive ((enfForest env (enfKeepState env st (lowerStr t)) ch).1,
        [.elem t (enfAttrs env (lowerStr t) attrs)
          (enfForest env (enfKeepState env st (lowerStr t)) ch).2])) :
    motive (enfNode env st (.elem t attrs ch)) := by
  by_cases h1 : ¬env.allowJavaScript ∧ lowerStr t = "script"
  · rw [enfNode_script env st t attrs ch h1]
    exact hscript h1
  by_cases h2 : lowerStr t = "style" ∧ ¬env.allowStyleTag
  · rw [enfNode_styleOff env st t attrs ch h1 h2]
    exact hstyleOff h2
  by_cases h3 : lowerStr t ∈ STRUCTURAL_TAGS
  · rw [enfNode_structural env st t attrs ch h1 h2 h3]
    exact hstructural h3
  by_cases h4 : st.countsSaturated = true
  · by_cases h5 : (lookupA env.tagCounts (lowerStr t)).getD 0 = 0
    · rw [enfNode_sat_unwrap env st t attrs ch h1 h2 h3 h4 h5]
      exact hsatUnwrap h3 h4 h5
    · rw [enfNode_sat_remove env st t attrs ch h1 h2 h3 h4 h5]
      exact hsatRemove h3 h4 h5
  by_cases h5 : (lookupA env.tagCounts (lowerStr t)).getD 0 = 0
  · rw [enfNode_unwrap env st t attrs ch h1 h2 h3 h4 h5]
    exact hunwrap h3 h4 h5
  by_cases h6 : (lookupA st.usedTagCounts (lowerStr t)).getD 0 ≥
      (lookupA env.tagCounts (lowerStr t)).getD 0
  · rw [enfNode_over_budget env st t attrs ch h1 h2 h3 h4 h5 h6]
    exact hover h3 h4 h5 h6
  by_cases h7 : lowerStr t = "style"
  · rw [enfNode_keep_style env st t attrs ch h1 h2 h3 h4 h5 h6 h7]
    have hstyleOn : env.allowStyleTag := by
      by_contra hcon
      exact h2 ⟨h7, hcon⟩
    exact hkeepStyle h7 hstyleOn h3 h4 h5 h6
  · rw [enfNode_keep env st t attrs ch h1 h2 h3 h4 h5 h6 h7]
    exact hkeep h7 h3 h4 h5 h6

/-! ## Attribute invariants (C4) -/

mutual
/-- All (tag, attribute list) pairs of the elements of a subtree. -/
def nodeElems : Node → List (String × List (String × String))
  | .elem t attrs ch => (t, attrs) :: forestElems ch
  | .text _ => []
  | .cssText _ => []
def forestElems : List Node → List (String × List (String × String))
  | [] => []
  | n :: rest => nodeElems n ++ forestElems rest
end

theorem forestElems_append (a b : List Node) :
    forestElems (a ++ b) = forestElems a ++ forestElems b := by
  induction a with
  | nil => rfl
  | cons n rest ih =>
    show forestElems (n :: (rest ++ b)) = _
    rw [forestElems, ih, forestElems, List.append_assoc]

/-- The attribute condition of C4 for one element, against a pass
environment: when JavaScript is disallowed no attribute name lower-cases
to an `on`-prefixed name, and every attribute's lower-cased name is in
the computed allowed set for the element's tag. -/
def AttrP (env : PassEnv) (e : String × List (String × String)) : Prop :=
  ∀ a ∈ e.2,
    (env.allowJavaScript = false → strStartsWith (lowerStr a.1) "on" = false) ∧
    lowerStr a.1 ∈ allowedAttrsFor env.attrAllowlist env.allowCommonAttributes (lowerStr e.1)

theorem filterAttributes_attrP (env : PassEnv) (tag : String)
    (attrs : List (String × String)) :
    ∀ a ∈ enfAttrs env tag attrs,
      (env.allowJavaScript = false → strStartsWith (lowerStr a.1) "on" = false) ∧
      lowerStr a.1 ∈ allowedAttrsFor env.attrAllowlist env.allowCommonAttributes tag := by
  intro a ha
  unfold enfAttrs filterAttributes at ha
  rw [List.mem_filterMap] at ha
  obtain ⟨a0, _, hsome⟩ := ha
  split at hsome
  · cases hsome
  · next hon =>
    split at hsome
    · cases hsome
    · next hmem =>
      rw [Classical.not_not] at hmem
      have hname : ∀ v2, a = (a0.1, v2) →
          (env.allowJavaScript = false → strStartsWith (lowerStr a.1) "on" = false) ∧
          lowerStr a.1 ∈ allowedAttrsFor env.attrAllowlist env.allowCommonAttributes tag := by
        intro v2 heq
        subst heq
        constructor
        · intro hjs
          by_contra hcon
          rw [Bool.not_eq_false] at hcon
          exact hon ⟨by rw [hjs]; simp, hcon⟩
        · exact hmem
      split at hsome
      · split at hsome
        · cases hsome
        · exact hname _ (Option.some.inj hsome).symm
      · split at hsome
        · split at hsome
          · cases hsome
          · exact hname _ (Option.some.inj hsome).symm
        · exact hname _ (Option.some.inj hsome).symm

mutual
theorem enfNode_attrP (env : PassEnv) (st : PassState) (n : Node) :
    ∀ e ∈ forestElems (enfNode env st n).2, AttrP env e := by
  match n with
  | .text s =>
    intro e he
    rw [enfNode_text] at he
    simp [forestElems, nodeElems] at he
  | .cssText sheet =>
    intro e he
    rw [enfNode_cssText] at he
    simp [forestElems, nodeElems] at he
  | .elem t attrs ch =>
    refine enfNode_elem_split env st t attrs ch
      (fun r => ∀ e ∈ forestElems r.2, AttrP env e) ?_ ?_ ?_ ?_ ?_ ?_ ?_ ?_ ?_
    · intro _ e he
      simp [forestElems] at he
    · intro _ e he
      simp [forestElems] at he
    · intro _ e he
      simp only [forestElems, nodeElems, List.append_nil] at he
      rcases List.mem_cons.mp he with he | he
      · subst he
        intro a ha
        exact filterAttributes_attrP env (lowerStr t) attrs a ha
      · exact enfForest_attrP env st ch e he
    · intro _ _ _ e he
      exact enfForest_attrP env st ch e he
    · intro _ _ _ e he
      simp [forestElems] at he
    · intro _ _ _ e he
      exact enfForest_attrP env st ch e he
    · intro _ _ _ _ e he
      simp [forestElems] at he
    · intro _ _ _ _ _ _ e he
      unfold filterStyleElement at he
      split at he
      · simp [forestElems] at he
      · simp only [forestElems, nodeElems, List.append_nil] at he
        rcases List.mem_cons.mp he with he | he
        · subst he
          intro a ha
          exact filterAttributes_attrP env (lowerStr t) attrs a ha
        · simp [forestElems, nodeElems] at he
    · intro _ _ _ _ _ e he
      simp only [forestElems, nodeElems, List.append_nil] at he
      rcases List.mem_cons.mp he with he | he
      · subst he
        intro a ha
        exact filterAttributes_attrP env (lowerStr t) attrs a ha
      · exact enfForest_attrP env _ ch e he
theorem enfForest_attrP (env : PassEnv) (st : PassState) (l : List Node) :
    ∀ e ∈ forestElems (enfForest env st l).2, AttrP env e := by
  match l with
  | [] =>
    intro e he
    rw [enfForest_nil] at he
    simp [forestElems] at he
  | n :: rest =>
    intro e he
    rw [enfForest_cons] at he
    simp only at he
    rw [forestElems_append] at he
    rcases List.mem_append.mp he with he | he
    · exact enfNode_attrP env st n e he
    · exact enfForest_attrP env _ rest e he
end

mutual
theorem purifyNode_attrP (env : PassEnv) (tags al : List String) (n : Node) :
    (∀ e ∈ nodeElems n, AttrP env e) →
    ∀ e ∈ forestElems (purifyNode tags al n), AttrP env e := by
  match n with
  | .text s =>
    intro _ e he
    simp [purifyNode, forestElems, nodeElems] at he
  | .cssText sheet =>
    intro _ e he
    simp [purifyNode, forestElems, nodeElems] at he
  | .elem t attrs ch =>
    intro h e he
    unfold purifyNode at he
    split at he
    · simp only [forestElems, nodeElems, List.append_nil] at he
      rcases List.mem_cons.mp he with he | he
      · subst he
        intro a ha
        rw [List.mem_filter] at ha
        exact h (t, attrs) (by simp [nodeElems]) a ha.1
      · exact purifyForest_attrP env tags al ch
          (fun e2 he2 => h e2 (by simp [nodeElems]; right; exact he2)) e he
    · split at he
      · simp [forestElems] at he
      · exact purifyForest_attrP env tags al ch
          (fun e2 he2 => h e2 (by simp [nodeElems]; right; exact he2)) e he
theorem purifyForest_attrP (env : PassEnv) (tags al : List String) (l : List Node) :
    (∀ e ∈ forestElems l, AttrP env e) →
    ∀ e ∈ forestElems (purifyForest tags al l), AttrP env e := by
  match l with
  | [] =>
    intro _ e he
    simp [purifyForest, forestElems] at he
  | n :: rest =>
    intro h e he
    unfold purifyForest at he
    rw [forestElems_append] at he
    rcases List.mem_append.mp he with he | he
    · exact purifyNode_attrP env tags al n
        (fun e2 he2 => h e2 (by rw [forestElems, List.mem_append]; left; exact he2)) e he
    · exact purifyForest_attrP env tags al rest
        (fun e2 he2 => h e2 (by rw [forestElems, List.mem_append]; right; exact he2)) e he
end

/-- C4: when JavaScript is disallowed, no attribute whose name starts
with `on` (case-insensitively) survives on any element of one filtering
pass's output — even if a rule allowed it — and every surviving
attribute's name is in the computed allowed set for its element's
tag. -/
theorem attribute_invariant (doc : List Node) (policy : CompiledPolicy)
    (hjs : policy.config.allowJavaScript.getD false = false) :
    ∀ e ∈ forestElems (sanitizeOnceWithPolicy doc policy), ∀ a ∈ e.2,
      strStartsWith (lowerStr a.1) "on" = false ∧
      lowerStr a.1 ∈ allowedAttrsFor policy.attrAllowlist
        (policy.config.allowCommonAttributes.getD false) (lowerStr e.1) := by
  intro e he a ha
  unfold sanitizeOnceWithPolicy applyDomPurify at he
  have h1 := purifyForest_attrP (mkPassEnv policy) (purifyAllowedTags policy)
    (purifyAllowedAttrs policy) _
    (enfForest_attrP (mkPassEnv policy) ⟨[], 0, (mkPassEnv policy).totalAllowedTags = 0⟩ doc)
    e he a ha
  have henv : (mkPassEnv policy).allowJavaScript = false := hjs
  exact ⟨h1.1 henv, h1.2⟩

/-- Witness for C4 at a concrete document and policy. -/
theorem attribute_invariant_witness :
    strStartsWith (lowerStr "href") "on" = false ∧
    lowerStr "href" ∈ allowedAttrsFor
      (compileRules ["a", "a|href"] ⟨none, none, none⟩).attrAllowlist
      ((compileRules ["a", "a|href"] ⟨none, none, none⟩).config.allowCommonAttributes.getD false)
      (lowerStr "a") :=
  attribute_invariant
    [Node.elem "a" [("onclick", "x"), ("href", "h")] []]
    (compileRules ["a", "a|href"] ⟨none, none, none⟩) (by decide)
    ("a", [("href", "h")]) (by decide) ("href", "h") (by decide)

/-! ## Tag budget invariants (C2) -/

/-- The pass's used counter for a tag, defaulting to 0. -/
def usedD (st : PassState) (t : String) : Nat :=
  (lookupA st.usedTagCounts t).getD 0

/-- The policy budget for a tag, defaulting to 0. -/
def budgetD (env : PassEnv) (t : String) : Nat :=
  (lookupA env.tagCounts t).getD 0

/-- Whether a rule is a single-segment rule naming the given
(lower-cased) tag. -/
def ruleNamesTag (t : String) (r : String) : Bool :=
  match (strSplitOnChar '|' r).map jsTrim with
  | [s] => lowerStr s == t && !(s == "")
  | _ => false

/-- The rule-derived budget of a tag: the number of single-segment
rules naming it. -/
def ruleBudget (rules : List String) (t : String) : Nat :=
  (rules.filter (ruleNamesTag t)).length

theorem lookupA_cons {α : Type} (k' : String) (v' : α) (rest : List (String × α))
    (k2 : String) :
    lookupA ((k', v') :: rest) k2 = if k' = k2 then some v' else lookupA rest k2 := by
  by_cases h : k' = k2
  · simp [lookupA, List.find?, h]
  · have hb : (k' == k2) = false := beq_eq_false_iff_ne.mpr h
    simp [lookupA, List.find?, hb, h]

theorem lookupA_setA {α : Type} (m : List (String × α)) (k k2 : String) (v : α) :
    lookupA (setA m k v) k2 = if k2 = k then some v else lookupA m k2 := by
  induction m with
  | nil =>
    show lookupA [(k, v)] k2 = _
    rw [lookupA_cons]
    by_cases h : k2 = k
    · simp [h]
    · simp [h, Ne.symm h, lookupA]
  | cons p rest ih =>
    obtain ⟨k', v'⟩ := p
    rw [setA]
    by_cases hk : k' = k
    · subst hk
      rw [if_pos rfl, lookupA_cons, lookupA_cons]
      by_cases h : k' = k2
      · simp [h]
      · simp [h, Ne.symm h]
    · rw [if_neg hk, lookupA_cons, lookupA_cons, ih]
      by_cases h2 : k' = k2 <;> by_cases h3 : k2 = k
      · exact absurd (h2.trans h3) hk
      · simp [h2, h3]
      · simp [h2, h3]
        exact fun hc => absurd hc hk
      · simp [h2, h3]

theorem usedD_enfKeepState (env : PassEnv) (st : PassState) (tag t : String) :
    usedD (enfKeepState env st tag) t =
      if t = tag then usedD st t + 1 else usedD st t := by
  unfold enfKeepState usedD
  split <;>
  · dsimp only
    rw [lookupA_setA]
    split
    · next h => subst h; rfl
    · rfl

theorem forestCountTag_append (t : String) (a b : List Node) :
    forestCountTag t (a ++ b) = forestCountTag t a + forestCountTag t b := by
  induction a with
  | nil => simp [forestCountTag]
  | cons n rest ih =>
    show forestCountTag t (n :: (rest ++ b)) = _
    rw [forestCountTag, ih, forestCountTag, Nat.add_assoc]

mutual
theorem enfNode_count (env : PassEnv) (st : PassState) (t : String)
    (ht : t ∉ STRUCTURAL_TAGS) (n : Node) :
    usedD st t ≤ budgetD env t →
    usedD (enfNode env st n).1 t ≤ budgetD env t ∧
    forestCountTag t (enfNode env st n).2 + usedD st t ≤ usedD (enfNode env st n).1 t := by
  match n with
  | .text s =>
    intro hu
    rw [enfNode_text]
    exact ⟨hu, by simp [forestCountTag, nodeCountTag]⟩
  | .cssText sheet =>
    intro hu
    rw [enfNode_cssText]
    exact ⟨hu, by simp [forestCountTag, nodeCountTag]⟩
  | .elem tg attrs ch =>
    intro hu
    refine enfNode_elem_split env st tg attrs ch
      (fun r => usedD r.1 t ≤ budgetD env t ∧
        forestCountTag t r.2 + usedD st t ≤ usedD r.1 t) ?_ ?_ ?_ ?_ ?_ ?_ ?_ ?_ ?_
    · intro _
      exact ⟨hu, by simp [forestCountTag]⟩
    · intro _
      exact ⟨hu, by simp [forestCountTag]⟩
    · intro h3
      have hf := enfForest_count env st t ht ch hu
      have hne : lowerStr tg ≠ t := fun hc => ht (hc ▸ h3)
      refine ⟨hf.1, ?_⟩
      show nodeCountTag t (.elem tg (enfAttrs env (lowerStr tg) attrs)
          (enfForest env st ch).2) + forestCountTag t [] + usedD st t ≤
        usedD (enfForest env st ch).1 t
      rw [nodeCountTag, if_neg hne, forestCountTag]
      have := hf.2
      omega
    · intro _ _ _
      exact enfForest_count env st t ht ch hu
    · intro _ _ _
      exact ⟨hu, by simp [forestCountTag]⟩
    · intro _ _ _
      exact enfForest_count env st t ht ch hu
    · intro _ _ _ _
      exact ⟨hu, by simp [forestCountTag]⟩
    · intro hstyle _ _ _ hb hle
      push_neg at hle
      have hlt : usedD st (lowerStr tg) < budgetD env (lowerStr tg) := hle
      constructor
      · rw [usedD_enfKeepState]
        split
        · next heq => rw [heq]; omega
        · exact hu
      · show forestCountTag t (filterStyleElement env tg
            (enfAttrs env (lowerStr tg) attrs) (forestCss ch)) + usedD st t ≤ _
        unfold filterStyleElement
        split
        · rw [usedD_enfKeepState]
          simp only [forestCountTag]
          split <;> omega
        · rw [usedD_enfKeepState]
          simp only [forestCountTag, nodeCountTag, Nat.add_zero]
          by_cases hteq : t = lowerStr tg
          · rw [if_pos hteq.symm, if_pos hteq]
            omega
          · rw [if_neg (fun hc => hteq hc.symm), if_neg hteq]
            omega
    · intro _ _ _ _ hle
      push_neg at hle
      have hlt : usedD st (lowerStr tg) < budgetD env (lowerStr tg) := hle
      have hu1 : usedD (enfKeepState env st (lowerStr tg)) t ≤ budgetD env t := by
        rw [usedD_enfKeepState]
        split
        · next heq => rw [heq]; omega
        · exact hu
      have hf := enfForest_count env (enfKeepState env st (lowerStr tg)) t ht ch hu1
      refine ⟨hf.1, ?_⟩
      show nodeCountTag t (.elem tg (enfAttrs env (lowerStr tg) attrs)
          (enfForest env (enfKeepState env st (lowerStr tg)) ch).2) +
        forestCountTag t [] + usedD st t ≤
        usedD (enfForest env (enfKeepState env st (lowerStr tg)) ch).1 t
      rw [nodeCountTag, forestCountTag]
      have hk := usedD_enfKeepState env st (lowerStr tg) t
      have hfc := hf.2
      by_cases hteq : lowerStr tg = t
      · rw [if_pos hteq]
        rw [if_pos hteq.symm] at hk
        omega
      · rw [if_neg hteq]
        rw [if_neg (fun hc => hteq hc.symm)] at hk
        omega
theorem enfForest_count (env : PassEnv) (st : PassState) (t : String)
    (ht : t ∉ STRUCTURAL_TAGS) (l : List Node) :
    usedD st t ≤ budgetD env t →
    usedD (enfForest env st l).1 t ≤ budgetD env t ∧
    forestCountTag t (enfForest env st l).2 + usedD st t ≤ usedD (enfForest env st l).1 t := by
  match l with
  | [] =>
    intro hu
    rw [enfForest_nil]
    exact ⟨hu, by simp [forestCountTag]⟩
  | n :: rest =>
    intro hu
    have h1 := enfNode_count env st t ht n hu
    have h2 := enfForest_count env (enfNode env st n).1 t ht rest h1.1
    rw [enfForest_cons]
    refine ⟨h2.1, ?_⟩
    show forestCountTag t ((enfNode env st n).2 ++
      (enfForest env (enfNode env st n).1 rest).2) + usedD st t ≤
      usedD (enfForest env (enfNode env st n).1 rest).1 t
    rw [forestCountTag_append]
    have ha := h1.2
    have hb := h2.2
    omega
end

mutual
theorem purifyNode_count_le (tags al : List String) (t : String) (n : Node) :
    forestCountTag t (purifyNode tags al n) ≤ nodeCountTag t n := by
  match n with
  | .text s => simp [purifyNode, forestCountTag, nodeCountTag]
  | .cssText sheet => simp [purifyNode, forestCountTag, nodeCountTag]
  | .elem tg attrs ch =>
    rw [purifyNode]
    split
    · rw [forestCountTag, forestCountTag, nodeCountTag, nodeCountTag]
      have := purifyForest_count_le tags al t ch
      omega
    · split
      · rw [forestCountTag, nodeCountTag]
        omega
      · rw [nodeCountTag]
        have := purifyForest_count_le tags al t ch
        omega
theorem purifyForest_count_le (tags al : List String) (t : String) (l : List Node) :
    forestCountTag t (purifyForest tags al l) ≤ forestCountTag t l := by
  match l with
  | [] => simp [purifyForest, forestCountTag]
  | n :: rest =>
    rw [purifyForest, forestCountTag_append, forestCountTag]
    have h1 := purifyNode_count_le tags al t n
    have h2 := purifyForest_count_le tags al t rest
    omega
end

theorem compileRule_tagCounts
    (acc : List (String × Nat) × List (String × List String) × List (String × List String))
    (r t : String) :
    (lookupA (compileRule acc r).1 t).getD 0 =
      (lookupA acc.1 t).getD 0 + (if ruleNamesTag t r = true then 1 else 0) := by
  unfold compileRule ruleNamesTag
  rcases hsplit : (strSplitOnChar '|' r).map jsTrim with _ | ⟨s1, _ | ⟨s2, _ | ⟨s3, rest⟩⟩⟩
  · simp
  · dsimp only
    by_cases he : lowerStr s1 = ""
    · have hs1 : s1 = "" := by
        exact (lowerStr_empty_iff s1).mp he
      rw [if_pos he]
      subst hs1
      simp
    · rw [if_neg he]
      have hs1 : ¬ s1 = "" := fun hc => he (by rw [hc]; rfl)
      by_cases hteq : lowerStr s1 = t
      · have : (lowerStr s1 == t && !(s1 == "")) = true := by
          rw [Bool.and_eq_true, beq_iff_eq, Bool.not_eq_true', beq_eq_false_iff_ne]
          exact ⟨hteq, hs1⟩
        rw [if_pos this]
        dsimp only
        rw [lookupA_setA, if_pos hteq.symm, hteq]
        simp
      · have : ¬ (lowerStr s1 == t && !(s1 == "")) = true := by
          rw [Bool.and_eq_true, beq_iff_eq]
          exact fun hc => hteq hc.1
        rw [if_neg this]
        dsimp only
        rw [lookupA_setA, if_neg (fun hc : t = lowerStr s1 => hteq hc.symm)]
        simp
  · dsimp only
    split
    · simp
    · simp
  · rcases rest with _ | ⟨s4, rest2⟩
    · dsimp only
      split
      · split
        · simp
        · simp
      · simp
    · simp

theorem foldl_compileRule_tagCounts (t : String) (rules : List String) :
    ∀ acc : List (String × Nat) × List (String × List String) × List (String × List String),
    (lookupA (List.foldl compileRule acc rules).1 t).getD 0 =
      (lookupA acc.1 t).getD 0 + ruleBudget rules t := by
  induction rules with
  | nil =>
    intro acc
    simp [ruleBudget, List.filter]
  | cons r rest ih =>
    intro acc
    rw [List.foldl_cons, ih (compileRule acc r), compileRule_tagCounts]
    unfold ruleBudget
    rw [List.filter_cons]
    split
    · simp only [List.length_cons]
      omega
    · omega

/-- The compiled budget of a tag is its rule-derived budget. -/
theorem compileRules_tagCounts (rules : List String) (config : SanitizerConfig)
    (t : String) :
    (lookupA (compileRules rules config).tagCounts t).getD 0 = ruleBudget rules t := by
  show (lookupA (List.foldl compileRule ([], [], []) rules).1 t).getD 0 = _
  rw [foldl_compileRule_tagCounts]
  have h0 : (lookupA (([], [], []) : List (String × Nat) ×
      List (String × List String) × List (String × List String)).1 t).getD 0 = 0 := rfl
  omega

/-- One full pass keeps each non-structural tag within its compiled
budget. -/
theorem sanitizeOnce_count (doc : List Node) (policy : CompiledPolicy) (t : String)
    (ht : t ∉ STRUCTURAL_TAGS) :
    forestCountTag t (sanitizeOnceWithPolicy doc policy) ≤
      (lookupA policy.tagCounts t).getD 0 := by
  unfold sanitizeOnceWithPolicy applyDomPurify
  refine le_trans (purifyForest_count_le _ _ _ _) ?_
  have h := enfForest_count (mkPassEnv policy)
    ⟨[], 0, decide ((mkPassEnv policy).totalAllowedTags = 0)⟩ t ht doc
    (by simp [usedD, lookupA, List.find?])
  have hb : budgetD (mkPassEnv policy) t = (lookupA policy.tagCounts t).getD 0 := rfl
  have h0 : usedD ⟨[], 0, decide ((mkPassEnv policy).totalAllowedTags = 0)⟩ t = 0 := by
    simp [usedD, lookupA, List.find?]
  omega

/-- With at least one pass, the loop's result is a fixed point of or an
output of the single pass. -/
theorem sanitizePasses_image (policy : CompiledPolicy) (k : Nat) (hk : 1 ≤ k)
    (doc : List Node) :
    ∃ d, sanitizePasses policy k doc = sanitizeOnceWithPolicy d policy := by
  obtain ⟨j, hj, heq, hst⟩ := sanitizePasses_exists_iterate policy k doc
  cases j with
  | zero =>
    exact ⟨sanitizePasses policy k doc, (hst (by omega)).symm⟩
  | succ i =>
    refine ⟨(fun d => sanitizeOnceWithPolicy d policy)^[i] doc, ?_⟩
    rw [heq, Function.iterate_succ_apply']

/-- C2 fails as stated: when `config.maxPasses` is 0 the loop never
runs, so a `div` with no rule naming it (budget 0) survives. -/
theorem tag_budget_claim_counterexample :
    forestCountTag "div"
      (sanitize [Node.elem "div" [] []] [] ⟨none, none, some 0⟩) = 1 ∧
    "div" ∉ STRUCTURAL_TAGS ∧ ruleBudget [] "div" = 0 := by
  refine ⟨by decide, by decide, by decide⟩

/-- C2 (amended): when the effective pass ceiling is at least one, each
non-structural tag occurs in `sanitize`'s output at most its
rule-derived budget (the number of single-segment rules naming it,
hence zero when no rule names it) many times; and tag enforcement keeps
every `html`/`head`/`body` element in place — never counting, removing
or unwrapping it. -/
theorem tag_budget_invariant (doc : List Node) (rules : List String)
    (config : SanitizerConfig) (t : String)
    (hp : 1 ≤ (config.maxPasses.getD 10).toNat)
    (ht : t ∉ STRUCTURAL_TAGS) :
    forestCountTag t (sanitize doc rules config) ≤ ruleBudget rules t ∧
    (∀ env st tg attrs ch, lowerStr tg ∈ STRUCTURAL_TAGS →
      enfNode env st (Node.elem tg attrs ch) =
        ((enfForest env st ch).1,
          [Node.elem tg (enfAttrs env (lowerStr tg) attrs) (enfForest env st ch).2])) := by
  constructor
  · have himg : ∃ d, sanitize doc rules config =
        sanitizeOnceWithPolicy d (compileRules rules config) := by
      show ∃ d, sanitizePasses (compileRules rules config)
        ((compileRules rules config).config.maxPasses.getD 10).toNat doc = _
      exact sanitizePasses_image (compileRules rules config) _ hp doc
    obtain ⟨d, hd⟩ := himg
    rw [hd, ← compileRules_tagCounts rules config t]
    exact sanitizeOnce_count d (compileRules rules config) t ht
  · intro env st tg attrs ch hstruct
    have hns : lowerStr tg ≠ "script" := by
      have : "script" ∉ STRUCTURAL_TAGS := by decide
      exact fun hc => this (hc ▸ hstruct)
    have hnst : lowerStr tg ≠ "style" := by
      have : "style" ∉ STRUCTURAL_TAGS := by decide
      exact fun hc => this (hc ▸ hstruct)
    exact enfNode_structural env st tg attrs ch
      (fun hc => hns hc.2) (fun hc => hnst hc.1) hstruct

/-- Witness for C2 (amended) at a concrete document, rule list and
config. -/
theorem tag_budget_invariant_witness :
    (forestCountTag "div"
        (sanitize [Node.elem "div" [] [], Node.elem "div" [] []]
          ["div"] ⟨none, none, none⟩) ≤ ruleBudget ["div"] "div" ∧
      (∀ env st tg attrs ch, lowerStr tg ∈ STRUCTURAL_TAGS →
        enfNode env st (Node.elem tg attrs ch) =
          ((enfForest env st ch).1,
            [Node.elem tg (enfAttrs env (lowerStr tg) attrs)
              (enfForest env st ch).2]))) :=
  tag_budget_invariant [Node.elem "div" [] [], Node.elem "div" [] []]
    ["div"] ⟨none, none, none⟩ "div" (by decide) (by decide)

/-! ## The saturation shortcut (C6) -/

mutual
/-- Written to the spec's words (§4.3): the identical enforcement pass
that always performs per-tag counting and never takes the saturation
branch; everything else (branch order, state updates, attribute and
style filtering) is as in `enfNode`. -/
def enfNodeNS (env : PassEnv) (st : PassState) : Node → PassState × List Node
  | .text s => (st, [.text s])
  | .cssText sheet => (st, [.cssText sheet])
  | .elem t attrs children =>
    if ¬env.allowJavaScript ∧ lowerStr t = "script" then (st, [])
    else if lowerStr t = "style" ∧ ¬env.allowStyleTag then (st, [])
    else if lowerStr t ∈ STRUCTURAL_TAGS then
      ((enfForestNS env st children).1,
        [.elem t (enfAttrs env (lowerStr t) attrs) (enfForestNS env st children).2])
    else if (lookupA env.tagCounts (lowerStr t)).getD 0 = 0 then
      enfForestNS env st children
    else if (lookupA st.usedTagCounts (lowerStr t)).getD 0 ≥
        (lookupA env.tagCounts (lowerStr t)).getD 0 then (st, [])
    else if lowerStr t = "style" then
      (enfKeepState env st (lowerStr t),
        filterStyleElement env t (enfAttrs env (lowerStr t) attrs) (forestCss children))
    else
      ((enfForestNS env (enfKeepState env st (lowerStr t)) children).1,
        [.elem t (enfAttrs env (lowerStr t) attrs)
          (enfForestNS env (enfKeepState env st (lowerStr t)) children).2])
def enfForestNS (env : PassEnv) (st : PassState) : List Node → PassState × List Node
  | [] => (st, [])
  | n :: rest =>
    ((enfForestNS env (enfNodeNS env st n).1 rest).1,
      (enfNodeNS env st n).2 ++ (enfForestNS env (enfNodeNS env st n).1 rest).2)
end

/-- The pass of §4 with the no-saturation enforcement of `enfNodeNS`. -/
def sanitizeOnceWithPolicyNS (doc : List Node) (policy : CompiledPolicy) : List Node :=
  applyDomPurify
    (enfForestNS (mkPassEnv policy)
      ⟨[], 0, decide ((mkPassEnv policy).totalAllowedTags = 0)⟩ doc).2 policy

/-- The non-structural budget entries of the environment. -/
def nsEntries (env : PassEnv) : List (String × Nat) :=
  env.tagCounts.filter (fun e => decide (e.1 ∉ STRUCTURAL_TAGS))

/-- The remaining budget, summed over the non-structural entries. -/
def defSum (st : PassState) (l : List (String × Nat)) : Nat :=
  (l.map (fun e => e.2 - usedD st e.1)).sum

def deficit (env : PassEnv) (st : PassState) : Nat := defSum st (nsEntries env)

/-- The counting invariant of the pass state: used counters stay within
budgets, the running total plus the remaining budget is the total
budget, and the saturation flag implies the total budget is spent. -/
def SatInv (env : PassEnv) (st : PassState) : Prop :=
  (∀ t, usedD st t ≤ budgetD env t) ∧
  st.usedTotalTags + deficit env st = env.totalAllowedTags ∧
  (st.countsSaturated = true → st.usedTotalTags ≥ env.totalAllowedTags)

theorem defSum_cons (st : PassState) (e : String × Nat) (l : List (String × Nat)) :
    defSum st (e :: l) = (e.2 - usedD st e.1) + defSum st l := by
  simp [defSum]

theorem defSum_keep_not_mem (env : PassEnv) (st : PassState) (g : String)
    (l : List (String × Nat)) (h : g ∉ l.map Prod.fst) :
    defSum (enfKeepState env st g) l = defSum st l := by
  induction l with
  | nil => rfl
  | cons e rest ih =>
    have hg : e.1 ≠ g := by
      intro hc
      exact h (by simp [hc.symm])
    rw [defSum_cons, defSum_cons, usedD_enfKeepState,
      if_neg (fun hc : e.1 = g => hg hc), ih (fun hc => h (by simp [hc]))]

theorem defSum_keep_mem (env : PassEnv) (st : PassState) (g : String) (v : Nat)
    (l : List (String × Nat)) (hnd : (l.map Prod.fst).Nodup)
    (hmem : (g, v) ∈ l) (hlt : usedD st g < v) :
    defSum (enfKeepState env st g) l + 1 = defSum st l := by
  induction l with
  | nil => cases hmem
  | cons e rest ih =>
    rcases List.mem_cons.mp hmem with he | he
    · have hkeys : g ∉ rest.map Prod.fst := by
        have := (List.nodup_cons.mp hnd).1
        rw [← he] at this
        exact this
      rw [defSum_cons, defSum_cons, defSum_keep_not_mem env st g rest hkeys,
        ← he]
      dsimp only
      rw [usedD_enfKeepState, if_pos rfl]
      omega
    · have hgrest : g ∈ rest.map Prod.fst := by
        exact List.mem_map.mpr ⟨(g, v), he, rfl⟩
      have hne : e.1 ≠ g := by
        intro hc
        exact (List.nodup_cons.mp hnd).1 (hc ▸ hgrest)
      rw [defSum_cons, defSum_cons, usedD_enfKeepState,
        if_neg (fun hc : e.1 = g => hne hc)]
      have := ih (List.nodup_cons.mp hnd).2 he
      omega

theorem lookupA_mem {α : Type} (m : List (String × α)) (k : String) (v : α)
    (h : lookupA m k = some v) : (k, v) ∈ m := by
  unfold lookupA at h
  rcases hf : m.find? (fun p => p.1 == k) with _ | p
  · rw [hf] at h
    cases h
  · rw [hf] at h
    have hp : p.2 = v := by
      injection h
    have hmem := List.mem_of_find?_eq_some hf
    have hk := List.find?_some hf
    have hk2 : p.1 = k := by
      rwa [beq_iff_eq] at hk
    have : p = (k, v) := by
      obtain ⟨p1, p2⟩ := p
      simp at hk2 hp
      rw [hk2, hp]
    rwa [this] at hmem

theorem budget_entry_mem (env : PassEnv) (g : String) (hb : budgetD env g ≠ 0)
    (hg : g ∉ STRUCTURAL_TAGS) : (g, budgetD env g) ∈ nsEntries env := by
  unfold budgetD at hb ⊢
  rcases hl : lookupA env.tagCounts g with _ | v
  · rw [hl] at hb
    simp at hb
  · simp only [Option.getD_some]
    have hmem := lookupA_mem env.tagCounts g v hl
    refine List.mem_filter.mpr ⟨?_, ?_⟩
    · simpa using hmem
    · simpa using hg

theorem nsEntries_keys_nodup (env : PassEnv)
    (hnd : (env.tagCounts.map Prod.fst).Nodup) :
    ((nsEntries env).map Prod.fst).Nodup := by
  unfold nsEntries
  exact List.Nodup.sublist (List.Sublist.map Prod.fst (List.filter_sublist _)) hnd

theorem satInv_keep (env : PassEnv) (st : PassState) (g : String)
    (hnd : (env.tagCounts.map Prod.fst).Nodup)
    (hg : g ∉ STRUCTURAL_TAGS) (hb : budgetD env g ≠ 0)
    (hlt : usedD st g < budgetD env g) (hinv : SatInv env st) :
    SatInv env (enfKeepState env st g) := by
  obtain ⟨h1, h2, h3⟩ := hinv
  have hdef : deficit env (enfKeepState env st g) + 1 = deficit env st :=
    defSum_keep_mem env st g (budgetD env g) (nsEntries env)
      (nsEntries_keys_nodup env hnd) (budget_entry_mem env g hb hg) hlt
  have htot : (enfKeepState env st g).usedTotalTags = st.usedTotalTags + 1 := by
    unfold enfKeepState
    split <;> rfl
  refine ⟨?_, ?_, ?_⟩
  · intro t
    rw [usedD_enfKeepState]
    split
    · next heq => rw [heq]; omega
    · exact h1 t
  · rw [htot]
    omega
  · intro hflag
    rw [htot]
    unfold enfKeepState at hflag
    split at hflag
    · next hc => omega
    · dsimp only at hflag
      have := h3 hflag
      omega

theorem deficit_zero_ge (env : PassEnv) (st : PassState)
    (h0 : deficit env st = 0) (t : String) (htns : t ∉ STRUCTURAL_TAGS)
    (hb : budgetD env t ≠ 0) : usedD st t ≥ budgetD env t := by
  have hmem := budget_entry_mem env t hb htns
  unfold deficit defSum at h0
  rw [List.sum_eq_zero_iff] at h0
  have := h0 (budgetD env t - usedD st t)
    (List.mem_map.mpr ⟨(t, budgetD env t), hmem, rfl⟩)
  omega

theorem foldl_total (m : List (String × Nat)) :
    ∀ a : Nat,
      m.foldl (fun acc e => if e.1 ∈ STRUCTURAL_TAGS then acc else acc + e.2) a =
        a + ((m.filter (fun e => decide (e.1 ∉ STRUCTURAL_TAGS))).map Prod.snd).sum := by
  induction m with
  | nil =>
    intro a
    simp [List.foldl, List.filter]
  | cons e rest ih =>
    intro a
    rw [List.foldl_cons, List.filter_cons]
    by_cases hs : e.1 ∈ STRUCTURAL_TAGS
    · rw [if_pos hs, if_neg (by simp [hs]), ih]
    · rw [if_neg hs, if_pos (by simp [hs]), ih]
      simp
      omega

theorem satInv_init (policy : CompiledPolicy) :
    SatInv (mkPassEnv policy)
      ⟨[], 0, decide ((mkPassEnv policy).totalAllowedTags = 0)⟩ := by
  have hused : ∀ t, usedD ⟨[], 0, decide ((mkPassEnv policy).totalAllowedTags = 0)⟩ t = 0 := by
    intro t
    simp [usedD, lookupA, List.find?]
  have hdef : deficit (mkPassEnv policy)
      ⟨[], 0, decide ((mkPassEnv policy).totalAllowedTags = 0)⟩ =
      (mkPassEnv policy).totalAllowedTags := by
    unfold deficit defSum
    have hmap : (nsEntries (mkPassEnv policy)).map
        (fun e => e.2 - usedD ⟨[], 0, decide ((mkPassEnv policy).totalAllowedTags = 0)⟩ e.1) =
        (nsEntries (mkPassEnv policy)).map Prod.snd := by
      refine List.map_congr_left ?_
      intro e _
      rw [hused, Nat.sub_zero]
    rw [hmap]
    show (List.map Prod.snd (nsEntries (mkPassEnv policy))).sum =
      policy.tagCounts.foldl
        (fun acc e => if e.1 ∈ STRUCTURAL_TAGS then acc else acc + e.2) 0
    rw [foldl_total policy.tagCounts 0, Nat.zero_add]
    rfl
  refine ⟨?_, ?_, ?_⟩
  · intro t
    rw [hused]
    exact Nat.zero_le _
  · rw [hdef]
    dsimp only
    omega
  · intro hflag
    have : (mkPassEnv policy).totalAllowedTags = 0 := of_decide_eq_true hflag
    omega

mutual
theorem enfNodeNS_eq (env : PassEnv) (st : PassState)
    (hnd : (env.tagCounts.map Prod.fst).Nodup) (n : Node) (hinv : SatInv env st) :
    enfNodeNS env st n = enfNode env st n ∧ SatInv env (enfNode env st n).1 := by
  match n with
  | .text s =>
    exact ⟨rfl, by rw [enfNode_text]; exact hinv⟩
  | .cssText sheet =>
    exact ⟨rfl, by rw [enfNode_cssText]; exact hinv⟩
  | .elem tg attrs ch =>
    by_cases h1 : ¬env.allowJavaScript ∧ lowerStr tg = "script"
    · rw [enfNode_script env st tg attrs ch h1]
      refine ⟨?_, hinv⟩
      unfold enfNodeNS
      rw [if_pos h1]
    by_cases h2 : lowerStr tg = "style" ∧ ¬env.allowStyleTag
    · rw [enfNode_styleOff env st tg attrs ch h1 h2]
      refine ⟨?_, hinv⟩
      unfold enfNodeNS
      rw [if_neg h1, if_pos h2]
    by_cases h3 : lowerStr tg ∈ STRUCTURAL_TAGS
    · rw [enfNode_structural env st tg attrs ch h1 h2 h3]
      have hf := enfForestNS_eq env st hnd ch hinv
      refine ⟨?_, hf.2⟩
      unfold enfNodeNS
      rw [if_neg h1, if_neg h2, if_pos h3, hf.1]
    by_cases h4 : st.countsSaturated = true
    · have hdef0 : deficit env st = 0 := by
        have hB := hinv.2.1
        have hC := hinv.2.2 h4
        omega
      by_cases h5 : (lookupA env.tagCounts (lowerStr tg)).getD 0 = 0
      · rw [enfNode_sat_unwrap env st tg attrs ch h1 h2 h3 h4 h5]
        have hf := enfForestNS_eq env st hnd ch hinv
        refine ⟨?_, hf.2⟩
        unfold enfNodeNS
        rw [if_neg h1, if_neg h2, if_neg h3, if_pos h5, hf.1]
      · rw [enfNode_sat_remove env st tg attrs ch h1 h2 h3 h4 h5]
        refine ⟨?_, hinv⟩
        have hge : (lookupA st.usedTagCounts (lowerStr tg)).getD 0 ≥
            (lookupA env.tagCounts (lowerStr tg)).getD 0 :=
          deficit_zero_ge env st hdef0 (lowerStr tg) h3 h5
        unfold enfNodeNS
        rw [if_neg h1, if_neg h2, if_neg h3, if_neg h5, if_pos hge]
    by_cases h5 : (lookupA env.tagCounts (lowerStr tg)).getD 0 = 0
    · rw [enfNode_unwrap env st tg attrs ch h1 h2 h3 h4 h5]
      have hf := enfForestNS_eq env st hnd ch hinv
      refine ⟨?_, hf.2⟩
      unfold enfNodeNS
      rw [if_neg h1, if_neg h2, if_neg h3, if_pos h5, hf.1]
    by_cases h6 : (lookupA st.usedTagCounts (lowerStr tg)).getD 0 ≥
        (lookupA env.tagCounts (lowerStr tg)).getD 0
    · rw [enfNode_over_budget env st tg attrs ch h1 h2 h3 h4 h5 h6]
      refine ⟨?_, hinv⟩
      unfold enfNodeNS
      rw [if_neg h1, if_neg h2, if_neg h3, if_neg h5, if_pos h6]
    have hkinv : SatInv env (enfKeepState env st (lowerStr tg)) :=
      satInv_keep env st (lowerStr tg) hnd h3 h5 (lt_of_not_ge h6) hinv
    by_cases h7 : lowerStr tg = "style"
    · rw [enfNode_keep_style env st tg attrs ch h1 h2 h3 h4 h5 h6 h7]
      refine ⟨?_, hkinv⟩
      unfold enfNodeNS
      rw [if_neg h1, if_neg h2, if_neg h3, if_neg h5, if_neg h6, if_pos h7]
    · rw [enfNode_keep env st tg attrs ch h1 h2 h3 h4 h5 h6 h7]
      have hf := enfForestNS_eq env (enfKeepState env st (lowerStr tg)) hnd ch hkinv
      refine ⟨?_, hf.2⟩
      unfold enfNodeNS
      rw [if_neg h1, if_neg h2, if_neg h3, if_neg h5, if_neg h6, if_neg h7, hf.1]
theorem enfForestNS_eq (env : PassEnv) (st : PassState)
    (hnd : (env.tagCounts.map Prod.fst).Nodup) (l : List Node) (hinv : SatInv env st) :
    enfForestNS env st l = enfForest env st l ∧ SatInv env (enfForest env st l).1 := by
  match l with
  | [] =>
    exact ⟨rfl, by rw [enfForest_nil]; exact hinv⟩
  | n :: rest =>
    have h1 := enfNodeNS_eq env st hnd n hinv
    have h2 := enfForestNS_eq env (enfNode env st n).1 hnd rest h1.2
    rw [enfForest_cons]
    refine ⟨?_, h2.2⟩
    unfold enfForestNS
    rw [h1.1, h2.1]
end

/-- C6: the global saturation shortcut changes no behavior.  For every
parsed document and policy whose budget keys are duplicate-free (true
of every compiled policy, since a JavaScript `Map` cannot hold a key
twice), the filtering pass run with the saturation branch produces
exactly the same document as the identical pass that always performs
per-tag counting and never takes the saturation branch. -/
theorem saturation_shortcut_equiv (doc : List Node) (policy : CompiledPolicy)
    (hnd : (policy.tagCounts.map Prod.fst).Nodup) :
    sanitizeOnceWithPolicyNS doc policy = sanitizeOnceWithPolicy doc policy := by
  unfold sanitizeOnceWithPolicyNS sanitizeOnceWithPolicy
  have hnd2 : ((mkPassEnv policy).tagCounts.map Prod.fst).Nodup := hnd
  have h := enfForestNS_eq (mkPassEnv policy)
    ⟨[], 0, decide ((mkPassEnv policy).totalAllowedTags = 0)⟩ hnd2 doc
    (satInv_init policy)
  rw [h.1]

/-- Witness for C6 at a concrete document (which saturates the budget)
and policy. -/
theorem saturation_shortcut_equiv_witness :
    sanitizeOnceWithPolicyNS
      [Node.elem "p" [] [], Node.elem "p" [] [], Node.elem "div" [] []]
      (compileRules ["p"] ⟨none, none, none⟩) =
    sanitizeOnceWithPolicy
      [Node.elem "p" [] [], Node.elem "p" [] [], Node.elem "div" [] []]
      (compileRules ["p"] ⟨none, none, none⟩) :=
  saturation_shortcut_equiv
    [Node.elem "p" [] [], Node.elem "p" [] [], Node.elem "div" [] []]
    (compileRules ["p"] ⟨none, none, none⟩) (by decide)

/-! ## Pass idempotence (C1): string groundwork -/

theorem jsTrimList_map_lower (l : List Char) :
    jsTrimList (l.map lowerChar) = (jsTrimList l).map lowerChar := by
  have hfun : (isJsWsChar ∘ lowerChar) = isJsWsChar := funext isJsWsChar_lowerChar
  unfold jsTrimList List.rdropWhile
  rw [List.dropWhile_map, hfun, ← List.map_reverse, List.dropWhile_map, hfun,
    List.map_reverse]

theorem lowerStr_jsTrim_comm (s : String) : jsTrim (lowerStr s) = lowerStr (jsTrim s) := by
  unfold jsTrim lowerStr
  simp only
  rw [jsTrimList_map_lower]

theorem jsTrim_lowerStr_jsTrim (s : String) :
    jsTrim (lowerStr (jsTrim s)) = lowerStr (jsTrim s) := by
  rw [lowerStr_jsTrim_comm, jsTrim_idempotent]

theorem splitOn_no_sep (c : Char) (l : List Char) (h : c ∉ l) :
    l.splitOn c = [l] := by
  show l.splitOnP (· == c) = [l]
  refine List.splitOnP_eq_single _ _ ?_
  intro x hx
  simp only [beq_iff_eq]
  exact fun hc => h (hc ▸ hx)

theorem splitOn_sep_append (c : Char) (l1 l2 : List Char) (h : c ∉ l1) :
    (l1 ++ c :: l2).splitOn c = l1 :: l2.splitOn c := by
  show (l1 ++ c :: l2).splitOnP (· == c) = l1 :: l2.splitOnP (· == c)
  refine List.splitOnP_first _ _ ?_ c (by simp) l2
  intro x hx
  simp only [beq_iff_eq]
  exact fun hc => h (hc ▸ hx)

theorem not_mem_splitOn_piece (c : Char) (l : List Char) :
    ∀ p ∈ l.splitOn c, c ∉ p := by
  show ∀ p ∈ l.splitOnP (· == c), c ∉ p
  induction l with
  | nil =>
    intro p hp
    rw [List.splitOnP_nil] at hp
    rcases List.mem_cons.mp hp with h | h
    · subst h
      simp
    · simp at h
  | cons x xs ih =>
    intro p hp
    rw [List.splitOnP_cons] at hp
    by_cases hx : x = c
    · rw [if_pos (by simp [hx])] at hp
      rcases List.mem_cons.mp hp with h | h
      · subst h
        simp
      · exact ih p h
    · rw [if_neg (by simp [hx])] at hp
      rcases hsp : xs.splitOnP (· == c) with _ | ⟨h0, rest⟩
      · exact absurd hsp (List.splitOnP_ne_nil _ xs)
      · rw [hsp] at hp
        simp only [List.modifyHead] at hp
        rcases List.mem_cons.mp hp with h | h
        · subst h
          intro hc
          rcases List.mem_cons.mp hc with hc | hc
          · exact hx hc.symm
          · exact (ih h0 (by rw [hsp]; exact List.mem_cons_self _ _)) hc
        · exact ih p (by rw [hsp]; exact List.mem_cons.mpr (Or.inr h))

theorem strSplitOnChar_no_sep (c : Char) (s : String) (h : c ∉ s.data) :
    strSplitOnChar c s = [s] := by
  unfold strSplitOnChar
  rw [splitOn_no_sep c _ h]
  rfl

theorem strSplitOnChar_append (c : Char) (s1 s2 : String) (h : c ∉ s1.data) :
    strSplitOnChar c (s1 ++ ⟨[c]⟩ ++ s2) = s1 :: strSplitOnChar c s2 := by
  unfold strSplitOnChar
  have hdata : (s1 ++ ⟨[c]⟩ ++ s2).data = s1.data ++ c :: s2.data := by
    simp [String.data_append]
  rw [hdata, splitOn_sep_append c _ _ h]
  rfl

theorem strIntercalate_go_append (x y sep : String) (l : List String) :
    String.intercalate.go (x ++ y) sep l = x ++ String.intercalate.go y sep l := by
  induction l generalizing y with
  | nil => rfl
  | cons a as ih =>
    show String.intercalate.go (x ++ y ++ sep ++ a) sep as = _
    have hre : x ++ y ++ sep ++ a = x ++ (y ++ sep ++ a) := by
      apply String.ext
      simp [String.data_append]
    rw [hre, ih (y ++ sep ++ a)]
    rfl

theorem strIntercalate_cons_cons (sep p q : String) (rest : List String) :
    String.intercalate sep (p :: q :: rest) =
      p ++ sep ++ String.intercalate sep (q :: rest) := by
  show String.intercalate.go p sep (q :: rest) = _
  show String.intercalate.go (p ++ sep ++ q) sep rest = _
  have hre : p ++ sep ++ q = (p ++ sep) ++ q := by
    apply String.ext
    simp [String.data_append]
  rw [hre, strIntercalate_go_append (p ++ sep) q sep rest]
  rfl

theorem strIntercalate_single (sep p : String) :
    String.intercalate sep [p] = p := rfl

theorem strSplitOnChar_intercalate (c : Char) :
    ∀ pieces : List String, pieces ≠ [] → (∀ p ∈ pieces, c ∉ p.data) →
      strSplitOnChar c (String.intercalate ⟨[c]⟩ pieces) = pieces := by
  intro pieces
  induction pieces with
  | nil => intro h; exact absurd rfl h
  | cons p rest ih =>
    intro _ hnc
    rcases rest with _ | ⟨q, rest2⟩
    · rw [strIntercalate_single]
      exact strSplitOnChar_no_sep c p (hnc p (List.mem_cons_self _ _))
    · rw [strIntercalate_cons_cons]
      rw [strSplitOnChar_append c p _ (hnc p (List.mem_cons_self _ _))]
      rw [ih (by simp) (fun x hx => hnc x (List.mem_cons.mpr (Or.inr hx)))]

theorem splitFirstColon_eq (p v : List Char) (h : (':' : Char) ∉ p) :
    splitFirstColon (p ++ ':' :: v) = some (p, v) := by
  induction p with
  | nil =>
    simp [splitFirstColon]
  | cons c rest ih =>
    rw [List.cons_append, splitFirstColon]
    rw [if_neg (fun hc : c = ':' => h (hc ▸ List.mem_cons_self c rest))]
    rw [ih (fun hx => h (List.mem_cons.mpr (Or.inr hx)))]
    rfl

theorem splitFirstColon_some (l : List Char) :
    ∀ p v, splitFirstColon l = some (p, v) → l = p ++ ':' :: v ∧ (':' : Char) ∉ p := by
  induction l with
  | nil =>
    intro p v h
    simp [splitFirstColon] at h
  | cons c rest ih =>
    intro p v h
    rw [splitFirstColon] at h
    by_cases hc : c = ':'
    · rw [if_pos hc] at h
      simp only [Option.some.injEq, Prod.mk.injEq] at h
      obtain ⟨hp, hv⟩ := h
      subst hp
      subst hv
      subst hc
      exact ⟨rfl, by simp⟩
    · rw [if_neg hc] at h
      rcases hs : splitFirstColon rest with _ | ⟨p0, v0⟩
      · rw [hs] at h
        cases h
      · rw [hs] at h
        simp only [Option.map_some', Option.some.injEq, Prod.mk.injEq] at h
        obtain ⟨hp, hv⟩ := h
        obtain ⟨hr, hnc⟩ := ih p0 v0 hs
        subst hv
        rw [← hp, hr]
        refine ⟨rfl, ?_⟩
        intro hmem
        rcases List.mem_cons.mp hmem with hm | hm
        · exact hc hm.symm
        · exact hnc hm

theorem jsTrimList_eq_nil_iff (l : List Char) :
    jsTrimList l = [] ↔ ∀ x ∈ l, isJsWsChar x := by
  unfold jsTrimList
  rw [List.rdropWhile_eq_nil_iff]
  constructor
  · intro h x hx
    by_cases hw : isJsWsChar x
    · exact hw
    · have : x ∈ l.takeWhile isJsWsChar ∨ x ∈ l.dropWhile isJsWsChar := by
        rw [← List.mem_append, List.takeWhile_append_dropWhile]
        exact hx
      rcases this with h2 | h2
      · exact absurd (List.mem_takeWhile_imp h2) hw
      · exact absurd (h x h2) hw
  · intro h x hx
    exact h x ((List.dropWhile_sublist _).subset hx)

theorem jsTrim_ne_empty_of_mem (s : String) (x : Char) (hx : x ∈ s.data)
    (hw : isJsWsChar x = false) : jsTrim s ≠ "" := by
  intro hc
  have hdata : jsTrimList s.data = [] := congrArg String.data hc
  rw [jsTrimList_eq_nil_iff] at hdata
  rw [hdata x hx] at hw
  cases hw

theorem not_mem_jsTrim (s : String) (c : Char) (h : c ∉ s.data) :
    c ∉ (jsTrim s).data :=
  fun hc => h ((jsTrimList_within s.data).sublist.subset hc)

theorem lowerChar_eq_low {c x : Char} (h : lowerChar x = c) (hc : c.toNat < 97) :
    x = c := by
  apply char_eq_of_toNat_eq
  have := congrArg Char.toNat h
  rw [toNat_lowerChar] at this
  unfold lowerNat at this
  split at this
  · omega
  · exact this

theorem not_mem_lowerStr (s : String) (c : Char) (hc : c.toNat < 97)
    (h : c ∉ s.data) : c ∉ (lowerStr s).data := by
  intro hmem
  unfold lowerStr at hmem
  simp only at hmem
  rw [List.mem_map] at hmem
  obtain ⟨x, hx, hlx⟩ := hmem
  rw [lowerChar_eq_low hlx hc] at hx
  exact h hx

/-- Structural form of `parseDeclList` over the already-split pieces. -/
def parsePieces : List String → Option (List (String × String))
  | [] => some []
  | piece :: rest =>
    match parsePieces rest with
    | none => none
    | some ds =>
      if jsTrim piece = "" then some ds
      else
        match splitFirstColon piece.data with
        | none => none
        | some (p, v) => some ((jsTrim ⟨p⟩, jsTrim ⟨v⟩) :: ds)

theorem parseDeclList_eq (value : String) :
    parseDeclList value = parsePieces (strSplitOnChar ';' value) := by
  unfold parseDeclList
  induction strSplitOnChar ';' value with
  | nil => rfl
  | cons piece rest ih =>
    rw [List.foldr_cons, ih]
    rfl

theorem parsePieces_mem (pieces : List String) :
    ∀ ds, parsePieces pieces = some ds →
      ∀ d ∈ ds, ∃ piece ∈ pieces, ∃ p v,
        splitFirstColon piece.data = some (p, v) ∧ d = (jsTrim ⟨p⟩, jsTrim ⟨v⟩) := by
  induction pieces with
  | nil =>
    intro ds h d hd
    rw [parsePieces] at h
    injection h with h
    subst h
    cases hd
  | cons piece rest ih =>
    intro ds h d hd
    rw [parsePieces] at h
    rcases hr : parsePieces rest with _ | ds0
    · rw [hr] at h
      cases h
    · rw [hr] at h
      dsimp only at h
      by_cases hb : jsTrim piece = ""
      · rw [if_pos hb] at h
        injection h with h
        subst h
        obtain ⟨pc, hpc, hrest⟩ := ih ds0 hr d hd
        exact ⟨pc, List.mem_cons.mpr (Or.inr hpc), hrest⟩
      · rw [if_neg hb] at h
        rcases hs : splitFirstColon piece.data with _ | ⟨p, v⟩
        · rw [hs] at h
          cases h
        · rw [hs] at h
          injection h with h
          subst h
          rcases List.mem_cons.mp hd with hd | hd
          · exact ⟨piece, List.mem_cons_self _ _, p, v, hs, hd⟩
          · obtain ⟨pc, hpc, hrest⟩ := ih ds0 hr d hd
            exact ⟨pc, List.mem_cons.mpr (Or.inr hpc), hrest⟩

theorem strSplitOnChar_mem_data (c : Char) (s : String) (piece : String)
    (h : piece ∈ strSplitOnChar c s) : c ∉ piece.data := by
  unfold strSplitOnChar at h
  rw [List.mem_map] at h
  obtain ⟨l, hl, heq⟩ := h
  subst heq
  exact not_mem_splitOn_piece c s.data l hl

/-- Every declaration produced by `parseDeclList` is trimmed, free of
`;` on both sides and free of `:` in its property. -/
theorem parseDeclList_shape (value : String) (ds : List (String × String))
    (h : parseDeclList value = some ds) :
    ∀ d ∈ ds, jsTrim d.1 = d.1 ∧ jsTrim d.2 = d.2 ∧
      (';' : Char) ∉ d.1.data ∧ (';' : Char) ∉ d.2.data ∧ (':' : Char) ∉ d.1.data := by
  rw [parseDeclList_eq] at h
  intro d hd
  obtain ⟨piece, hpiece, p, v, hs, heq⟩ := parsePieces_mem _ ds h d hd
  have hsemi : (';' : Char) ∉ piece.data := strSplitOnChar_mem_data ';' value piece hpiece
  obtain ⟨hcat, hnc⟩ := splitFirstColon_some piece.data p v hs
  have hps : (';' : Char) ∉ p := fun hc => hsemi (by rw [hcat]; exact List.mem_append.mpr (Or.inl hc))
  have hvs : (';' : Char) ∉ v := fun hc =>
    hsemi (by rw [hcat]; exact List.mem_append.mpr (Or.inr (List.mem_cons.mpr (Or.inr hc))))
  subst heq
  refine ⟨jsTrim_idempotent _, jsTrim_idempotent _, ?_, ?_, ?_⟩
  · exact not_mem_jsTrim ⟨p⟩ ';' hps
  · exact not_mem_jsTrim ⟨v⟩ ';' hvs
  · exact not_mem_jsTrim ⟨p⟩ ':' hnc

theorem parsePieces_normalized (ps : List (String × String))
    (h : ∀ d ∈ ps, (':' : Char) ∉ d.1.data ∧ jsTrim d.1 = d.1 ∧ jsTrim d.2 = d.2) :
    parsePieces (ps.map (fun d => d.1 ++ ":" ++ d.2)) = some ps := by
  induction ps with
  | nil => rfl
  | cons d rest ih =>
    rw [List.map_cons, parsePieces,
      ih (fun x hx => h x (List.mem_cons.mpr (Or.inr hx)))]
    obtain ⟨hnc, hp, hv⟩ := h d (List.mem_cons_self _ _)
    have hdata : (d.1 ++ ":" ++ d.2).data = d.1.data ++ ':' :: d.2.data := by
      simp [String.data_append]
    have hnb : jsTrim (d.1 ++ ":" ++ d.2) ≠ "" := by
      refine jsTrim_ne_empty_of_mem _ ':' ?_ (by decide)
      rw [hdata]
      exact List.mem_append.mpr (Or.inr (List.mem_cons_self _ _))
    dsimp only
    rw [if_neg hnb, hdata, splitFirstColon_eq d.1.data d.2.data hnc]
    show some ((jsTrim d.1, jsTrim d.2) :: rest) = _
    rw [hp, hv]

/-- C5 (amended): every CSS declaration surviving filtering (block
level or inline) has an allowlisted (selector, property) pair and a
value free of `url(...)` function calls at any nesting depth — a
value-parser function token whose name lower-cases to `url`; text
inside a quoted string is not a function call.  Block level: every
rule of `filterCss` output has a single allowlisted selector and only
declarations whose normalized property is in that selector's allowed
set and whose value is safe.  Inline: the output of
`filterInlineStyle` is a `;`-joined list of `prop:value` declarations
where each property is in the wildcard or tag entry of the allowlist
and each value is safe. -/
theorem css_filter_invariant_amended (styleAllowlist : List (String × List String))
    (root : List CssItem) (tag value : String) :
    (∀ item ∈ filterCss styleAllowlist root, ∀ sels nodes,
      item = CssItem.styleRule sels nodes →
      ∃ sel props, sels = [sel] ∧ lookupA styleAllowlist sel = some props ∧
        ∀ n ∈ nodes, ∀ p v, n = CssRuleNode.decl p v →
          lowerStr (jsTrim p) ∈ props ∧ isSafeCssValue v = true) ∧
    (∃ ds : List (String × String),
      filterInlineStyle tag value styleAllowlist =
        String.intercalate ";" (ds.map (fun d => d.1 ++ ":" ++ d.2)) ∧
      ∀ d ∈ ds,
        d.1 ∈ inlineAllowedProps styleAllowlist tag ∧
        isSafeCssValue d.2 = true) := by
  constructor
  · intro item hitem sels nodes hitem2
    subst hitem2
    unfold filterCss at hitem
    rw [List.mem_flatMap] at hitem
    obtain ⟨src, _, hmem⟩ := hitem
    match src with
    | .atRule t => simp at hmem
    | .comment c => simp at hmem
    | .styleRule sels0 nodes0 =>
      simp only at hmem
      rw [List.mem_filterMap] at hmem
      obtain ⟨sel, hsel, hsome⟩ := hmem
      rw [List.mem_filter] at hsel
      obtain ⟨props, hlk⟩ := Option.isSome_iff_exists.mp hsel.2
      split at hsome
      · cases hsome
      · have h2 := Option.some.inj hsome
        injection h2 with hsels hnodes
        subst hsels
        subst hnodes
        refine ⟨sel, props, rfl, hlk, ?_⟩
        intro n hn p v hn2
        subst hn2
        unfold filterCssDecls at hn
        rw [List.mem_filterMap] at hn
        obtain ⟨n0, _, hsome0⟩ := hn
        match n0 with
        | .comment c => simp at hsome0
        | .decl p0 v0 =>
          simp only at hsome0
          split at hsome0
          · next hcond =>
            cases hsome0
            have hprops : (lookupA styleAllowlist sel).getD [] = props := by
              rw [hlk]
              rfl
            rw [hprops] at hcond
            exact ⟨hcond.1, hcond.2⟩
          · cases hsome0
  · unfold filterInlineStyle
    by_cases hemp : (inlineAllowedProps styleAllowlist tag).isEmpty
    · rw [if_pos hemp]
      exact ⟨[], rfl, by intro d hd; simp at hd⟩
    · rw [if_neg hemp]
      cases hp : parseDeclList value with
      | none =>
        simp only [hp]
        exact ⟨[], rfl, by intro d hd; simp at hd⟩
      | some ds0 =>
        simp only [hp]
        refine ⟨ds0.filterMap (fun d =>
          if lowerStr (jsTrim d.1) ∈ inlineAllowedProps styleAllowlist tag ∧
              isSafeCssValue d.2 = true then
            some (lowerStr (jsTrim d.1), jsTrim d.2)
          else none), ?_, ?_⟩
        · rw [List.map_filterMap]
          congr 1
          apply List.filterMap_congr
          intro d _
          by_cases hcond : lowerStr (jsTrim d.1) ∈ inlineAllowedProps styleAllowlist tag ∧
              isSafeCssValue d.2 = true
          · rw [if_pos hcond, if_pos hcond]
            rfl
          · rw [if_neg hcond, if_neg hcond]
            rfl
        · intro d hd
          rw [List.mem_filterMap] at hd
          obtain ⟨d0, hd0, hsome0⟩ := hd
          split at hsome0
          · next hcond =>
            cases hsome0
            refine ⟨hcond.1, ?_⟩
            have ht2 := (parseDeclList_shape value ds0 hp d0 hd0).2.1
            dsimp only
            rw [ht2]
            exact hcond.2
          · cases hsome0


theorem filterInlineStyle_output_fixed (tag : String) (sl : List (String × List String))
    (ps : List (String × String))
    (hx : ∀ x ∈ ps, lowerStr x.1 = x.1 ∧ jsTrim x.1 = x.1 ∧ jsTrim x.2 = x.2 ∧
      (':' : Char) ∉ x.1.data ∧ (';' : Char) ∉ x.1.data ∧ (';' : Char) ∉ x.2.data ∧
      x.1 ∈ inlineAllowedProps sl tag ∧ isSafeCssValue x.2 = true)
    (hep : ¬(inlineAllowedProps sl tag).isEmpty = true) :
    filterInlineStyle tag
      (String.intercalate ";" (ps.map (fun x => x.1 ++ ":" ++ x.2))) sl =
      String.intercalate ";" (ps.map (fun x => x.1 ++ ":" ++ x.2)) := by
  have hparse2 : parseDeclList
      (String.intercalate ";" (ps.map (fun x => x.1 ++ ":" ++ x.2))) = some ps := by
    cases ps with
    | nil =>
      decide
    | cons x0 ps' =>
      rw [parseDeclList_eq]
      have hsep : (";" : String) = (⟨[';']⟩ : String) := rfl
      rw [hsep, strSplitOnChar_intercalate ';' _ (by simp) ?_]
      · exact parsePieces_normalized _ (fun d hd =>
          ⟨(hx d hd).2.2.2.1, (hx d hd).2.1, (hx d hd).2.2.1⟩)
      · intro pc hpc
        rw [List.mem_map] at hpc
        obtain ⟨x, hxm, heq⟩ := hpc
        subst heq
        obtain ⟨_, _, _, _, hs1, hs2, _, _⟩ := hx x hxm
        intro hmem
        rw [String.data_append, String.data_append] at hmem
        rcases List.mem_append.mp hmem with hm | hm
        · rcases List.mem_append.mp hm with hm | hm
          · exact hs1 hm
          · simp at hm
        · exact hs2 hm
  unfold filterInlineStyle
  rw [if_neg hep, hparse2]
  dsimp only
  congr 1
  have hcong : ∀ x ∈ ps,
      (if lowerStr (jsTrim x.1) ∈ inlineAllowedProps sl tag ∧ isSafeCssValue x.2 then
        some (lowerStr (jsTrim x.1) ++ ":" ++ jsTrim x.2)
      else none) = some (x.1 ++ ":" ++ x.2) := by
    intro x hxm
    obtain ⟨hl, ht1, ht2, _, _, _, hmemp, hsafe⟩ := hx x hxm
    have hc : lowerStr (jsTrim x.1) ∈ inlineAllowedProps sl tag ∧ isSafeCssValue x.2 := by
      rw [ht1, hl]
      exact ⟨hmemp, hsafe⟩
    rw [if_pos hc, ht1, hl, ht2]
  rw [List.filterMap_congr hcong]
  exact congrFun (List.filterMap_eq_map (fun x : String × String => x.1 ++ ":" ++ x.2)) ps

theorem filterInlineStyle_idem (tag v : String) (sl : List (String × List String)) :
    filterInlineStyle tag (filterInlineStyle tag v sl) sl =
      filterInlineStyle tag v sl := by
  by_cases hep : (inlineAllowedProps sl tag).isEmpty = true
  · unfold filterInlineStyle
    rw [if_pos hep, if_pos hep]
  · rcases hparse : parseDeclList v with _ | ds
    · have hinner : filterInlineStyle tag v sl = "" := by
        unfold filterInlineStyle
        rw [if_neg hep, hparse]
      rw [hinner]
      unfold filterInlineStyle
      rw [if_neg hep]
      have hpe : parseDeclList "" = some [] := by decide
      rw [hpe]
      rfl
    · have hshape := parseDeclList_shape v ds hparse
      have hxfacts : ∀ x ∈ ds.filterMap (fun d =>
          if lowerStr (jsTrim d.1) ∈ inlineAllowedProps sl tag ∧ isSafeCssValue d.2 then
            some (lowerStr (jsTrim d.1), jsTrim d.2)
          else none), lowerStr x.1 = x.1 ∧ jsTrim x.1 = x.1 ∧ jsTrim x.2 = x.2 ∧
          (':' : Char) ∉ x.1.data ∧ (';' : Char) ∉ x.1.data ∧ (';' : Char) ∉ x.2.data ∧
          x.1 ∈ inlineAllowedProps sl tag ∧ isSafeCssValue x.2 = true := by
        intro x hxm
        rw [List.mem_filterMap] at hxm
        obtain ⟨d, hd, hgd⟩ := hxm
        by_cases hc : lowerStr (jsTrim d.1) ∈ inlineAllowedProps sl tag ∧
            isSafeCssValue d.2
        · rw [if_pos hc] at hgd
          injection hgd with hgd
          subst hgd
          obtain ⟨ht1, ht2, hs1, hs2, hc1⟩ := hshape d hd
          dsimp only
          refine ⟨lowerStr_lowerStr _, jsTrim_lowerStr_jsTrim _, jsTrim_idempotent _,
            ?_, ?_, ?_, hc.1, by rw [ht2]; exact hc.2⟩
          · refine not_mem_lowerStr _ ':' (by decide) ?_
            rw [ht1]
            exact hc1
          · refine not_mem_lowerStr _ ';' (by decide) ?_
            rw [ht1]
            exact hs1
          · rw [ht2]
            exact hs2
        · rw [if_neg hc] at hgd
          cases hgd
      have hinner : filterInlineStyle tag v sl =
          String.intercalate ";" ((ds.filterMap (fun d =>
            if lowerStr (jsTrim d.1) ∈ inlineAllowedProps sl tag ∧ isSafeCssValue d.2 then
              some (lowerStr (jsTrim d.1), jsTrim d.2)
            else none)).map (fun x => x.1 ++ ":" ++ x.2)) := by
        unfold filterInlineStyle
        rw [if_neg hep, hparse]
        dsimp only
        rw [List.map_filterMap]
        congr 1
        refine List.filterMap_congr ?_
        intro d _
        by_cases hc : lowerStr (jsTrim d.1) ∈ inlineAllowedProps sl tag ∧
            isSafeCssValue d.2
        · rw [if_pos hc, if_pos hc]
          rfl
        · rw [if_neg hc, if_neg hc]
          rfl
      rw [hinner]
      exact filterInlineStyle_output_fixed tag sl _ hxfacts hep

theorem filterMap_idem {α : Type} (f : α → Option α)
    (h : ∀ a b, f a = some b → f b = some b) (l : List α) :
    (l.filterMap f).filterMap f = l.filterMap f := by
  induction l with
  | nil => rfl
  | cons a rest ih =>
    rcases hf : f a with _ | b
    · rw [List.filterMap_cons, hf]
      exact ih
    · rw [List.filterMap_cons, hf]
      dsimp only
      rw [List.filterMap_cons, h a b hf]
      dsimp only
      rw [ih]

theorem filterAttributes_idem (al sl : List (String × List String))
    (common js : Bool) (tag : String) (attrs : List (String × String)) :
    filterAttributes al sl common js tag (filterAttributes al sl common js tag attrs) =
      filterAttributes al sl common js tag attrs := by
  unfold filterAttributes
  refine filterMap_idem _ ?_ attrs
  intro a b hab
  by_cases h1 : ¬js ∧ strStartsWith (lowerStr a.1) "on"
  · rw [if_pos h1] at hab
    cases hab
  rw [if_neg h1] at hab
  by_cases h2 : lowerStr a.1 ∉ allowedAttrsFor al common tag
  · rw [if_pos h2] at hab
    cases hab
  rw [if_neg h2] at hab
  by_cases h3 : lowerStr a.1 = "style"
  · rw [if_pos h3] at hab
    by_cases h4 : (filterInlineStyle tag a.2 sl).length = 0
    · rw [if_pos h4] at hab
      cases hab
    · rw [if_neg h4] at hab
      injection hab with hab
      subst hab
      dsimp only
      rw [if_neg h1, if_neg h2, if_pos h3, filterInlineStyle_idem, if_neg h4]
  · rw [if_neg h3] at hab
    by_cases h4 : ¬js ∧ lowerStr a.1 ∈ URL_ATTRS
    · rw [if_pos h4] at hab
      by_cases h5 : isDangerousUrlValue (lowerStr a.1) a.2 = true
      · rw [if_pos h5] at hab
        cases hab
      · rw [if_neg h5] at hab
        injection hab with hab
        subst hab
        dsimp only
        rw [if_neg h1, if_neg h2, if_neg h3, if_pos h4, if_neg h5]
    · rw [if_neg h4] at hab
      injection hab with hab
      subst hab
      dsimp only
      rw [if_neg h1, if_neg h2, if_neg h3, if_neg h4]

theorem filterCss_cons (sl : List (String × List String)) (item : CssItem)
    (rest : List CssItem) :
    filterCss sl (item :: rest) = filterCss sl [item] ++ filterCss sl rest := by
  unfold filterCss
  simp [List.flatMap_cons]

theorem filterCssDecls_idem (props : List String) (nodes : List CssRuleNode) :
    filterCssDecls props (filterCssDecls props nodes) = filterCssDecls props nodes := by
  unfold filterCssDecls
  refine filterMap_idem _ ?_ nodes
  intro n b h
  cases n with
  | comment c =>
    dsimp only at h
    cases h
  | decl p v =>
    dsimp only at h
    by_cases hc : lowerStr (jsTrim p) ∈ props ∧ isSafeCssValue v = true
    · rw [if_pos hc] at h
      injection h with h
      subst h
      dsimp only
      rw [if_pos hc]
    · rw [if_neg hc] at h
      cases h

theorem filterCss_single (sl : List (String × List String)) (sel : String)
    (hsel : jsTrim sel = sel) (hsome : (lookupA sl sel).isSome = true)
    (ds : List CssRuleNode)
    (hds : filterCssDecls ((lookupA sl sel).getD []) ds = ds)
    (hne : ds.isEmpty = false) :
    filterCss sl [CssItem.styleRule [sel] ds] = [CssItem.styleRule [sel] ds] := by
  unfold filterCss
  simp only [List.flatMap_cons, List.flatMap_nil, List.append_nil]
  rw [List.map_cons, List.map_nil, hsel, List.filter_cons, List.filter_nil]
  rw [if_pos hsome]
  rw [List.filterMap_cons, List.filterMap_nil, hds, hne]
  rfl

theorem filterCss_filterMap_fixed (sl : List (String × List String))
    (nodes : List CssRuleNode) (l : List String)
    (hmem : ∀ sel ∈ l, jsTrim sel = sel ∧ (lookupA sl sel).isSome = true) :
    filterCss sl (l.filterMap (fun sel =>
      if (filterCssDecls ((lookupA sl sel).getD []) nodes).isEmpty then none
      else some (CssItem.styleRule [sel]
        (filterCssDecls ((lookupA sl sel).getD []) nodes)))) =
    l.filterMap (fun sel =>
      if (filterCssDecls ((lookupA sl sel).getD []) nodes).isEmpty then none
      else some (CssItem.styleRule [sel]
        (filterCssDecls ((lookupA sl sel).getD []) nodes))) := by
  induction l with
  | nil => rfl
  | cons sel rest ih =>
    have hm := hmem sel (List.mem_cons_self _ _)
    have ihr := ih (fun s hs => hmem s (List.mem_cons.mpr (Or.inr hs)))
    rw [List.filterMap_cons]
    by_cases hne : (filterCssDecls ((lookupA sl sel).getD []) nodes).isEmpty = true
    · rw [if_pos hne]
      exact ihr
    · rw [if_neg hne]
      dsimp only
      rw [filterCss_cons, ihr,
        filterCss_single sl sel hm.1 hm.2 _ (filterCssDecls_idem _ _)
          (eq_false_of_ne_true hne)]
      rfl

theorem filterCss_idem (sl : List (String × List String)) (root : List CssItem) :
    filterCss sl (filterCss sl root) = filterCss sl root := by
  induction root with
  | nil => rfl
  | cons item rest ih =>
    have happ : ∀ a b : List CssItem,
        filterCss sl (a ++ b) = filterCss sl a ++ filterCss sl b := by
      intro a b
      unfold filterCss
      rw [List.flatMap_append]
    rw [filterCss_cons, happ, ih]
    congr 1
    cases item with
    | atRule t => rfl
    | comment c => rfl
    | styleRule sels nodes =>
      have hone : filterCss sl [CssItem.styleRule sels nodes] =
          ((sels.map jsTrim).filter (fun sel => (lookupA sl sel).isSome)).filterMap
            (fun sel =>
              if (filterCssDecls ((lookupA sl sel).getD []) nodes).isEmpty then none
              else some (CssItem.styleRule [sel]
                (filterCssDecls ((lookupA sl sel).getD []) nodes))) := by
        unfold filterCss
        simp [List.flatMap_cons]
      rw [hone]
      refine filterCss_filterMap_fixed sl nodes _ ?_
      intro sel hs
      rw [List.mem_filter] at hs
      obtain ⟨hm, hp⟩ := hs
      rw [List.mem_map] at hm
      obtain ⟨s0, _, hs0⟩ := hm
      exact ⟨by rw [← hs0, jsTrim_idempotent], hp⟩

/-- Tag property of enforcement outputs: every element is structural or
carries a positive budget, and is not `script` when JavaScript is off. -/
def TagP (env : PassEnv) (e : String × List (String × String)) : Prop :=
  lowerStr e.1 ∈ STRUCTURAL_TAGS ∨
    (budgetD env (lowerStr e.1) ≠ 0 ∧
      (env.allowJavaScript = false → lowerStr e.1 ≠ "script"))

mutual
theorem enfNode_tagP (env : PassEnv) (st : PassState) (n : Node) :
    ∀ e ∈ forestElems (enfNode env st n).2, TagP env e := by
  match n with
  | .text s =>
    intro e he
    rw [enfNode_text] at he
    simp [forestElems, nodeElems] at he
  | .cssText sheet =>
    intro e he
    rw [enfNode_cssText] at he
    simp [forestElems, nodeElems] at he
  | .elem t attrs ch =>
    by_cases h1 : ¬env.allowJavaScript ∧ lowerStr t = "script"
    · rw [enfNode_script env st t attrs ch h1]
      intro e he
      simp [forestElems] at he
    · by_cases h2 : lowerStr t = "style" ∧ ¬env.allowStyleTag
      · rw [enfNode_styleOff env st t attrs ch h1 h2]
        intro e he
        simp [forestElems] at he
      · by_cases h3 : lowerStr t ∈ STRUCTURAL_TAGS
        · rw [enfNode_structural env st t attrs ch h1 h2 h3]
          intro e he
          simp only [forestElems, nodeElems, List.append_nil] at he
          rcases List.mem_cons.mp he with he | he
          · subst he
            exact Or.inl h3
          · exact enfForest_tagP env st ch e he
        · have hscript : env.allowJavaScript = false → lowerStr t ≠ "script" := by
            intro hjs hc
            refine h1 ⟨?_, hc⟩
            intro hcon
            rw [hjs] at hcon
            cases hcon
          by_cases h4 : st.countsSaturated = true
          · by_cases h5 : (lookupA env.tagCounts (lowerStr t)).getD 0 = 0
            · rw [enfNode_sat_unwrap env st t attrs ch h1 h2 h3 h4 h5]
              exact enfForest_tagP env st ch
            · rw [enfNode_sat_remove env st t attrs ch h1 h2 h3 h4 h5]
              intro e he
              simp [forestElems] at he
          · by_cases h5 : (lookupA env.tagCounts (lowerStr t)).getD 0 = 0
            · rw [enfNode_unwrap env st t attrs ch h1 h2 h3 h4 h5]
              exact enfForest_tagP env st ch
            · by_cases h6 : (lookupA st.usedTagCounts (lowerStr t)).getD 0 ≥
                  (lookupA env.tagCounts (lowerStr t)).getD 0
              · rw [enfNode_over_budget env st t attrs ch h1 h2 h3 h4 h5 h6]
                intro e he
                simp [forestElems] at he
              · by_cases h7 : lowerStr t = "style"
                · rw [enfNode_keep_style env st t attrs ch h1 h2 h3 h4 h5 h6 h7]
                  intro e he
                  unfold filterStyleElement at he
                  split at he
                  · simp [forestElems] at he
                  · simp only [forestElems, nodeElems, List.append_nil] at he
                    rcases List.mem_cons.mp he with he | he
                    · subst he
                      exact Or.inr ⟨h5, hscript⟩
                    · simp [forestElems, nodeElems] at he
                · rw [enfNode_keep env st t attrs ch h1 h2 h3 h4 h5 h6 h7]
                  intro e he
                  simp only [forestElems, nodeElems, List.append_nil] at he
                  rcases List.mem_cons.mp he with he | he
                  · subst he
                    exact Or.inr ⟨h5, hscript⟩
                  · exact enfForest_tagP env _ ch e he
theorem enfForest_tagP (env : PassEnv) (st : PassState) (l : List Node) :
    ∀ e ∈ forestElems (enfForest env st l).2, TagP env e := by
  match l with
  | [] =>
    intro e he
    rw [enfForest_nil] at he
    simp [forestElems] at he
  | n :: rest =>
    intro e he
    rw [enfForest_cons] at he
    simp only at he
    rw [forestElems_append] at he
    rcases List.mem_append.mp he with he | he
    · exact enfNode_tagP env st n e he
    · exact enfForest_tagP env _ rest e he
end

theorem tagP_mem_purifyAllowedTags (policy : CompiledPolicy)
    (e : String × List (String × String)) (h : TagP (mkPassEnv policy) e) :
    lowerStr e.1 ∈ purifyAllowedTags policy := by
  unfold purifyAllowedTags
  dsimp only
  have hbase : TagP (mkPassEnv policy) e →
      lowerStr e.1 ∈ (policy.tagCounts.map Prod.fst) ++ STRUCTURAL_TAGS := by
    intro h2
    rcases h2 with h2 | ⟨hb, _⟩
    · exact List.mem_append.mpr (Or.inr h2)
    · refine List.mem_append.mpr (Or.inl ?_)
      unfold budgetD at hb
      rcases hl : lookupA (mkPassEnv policy).tagCounts (lowerStr e.1) with _ | v
      · rw [hl] at hb
        simp at hb
      · have hmem := lookupA_mem _ _ _ hl
        exact List.mem_map.mpr ⟨(lowerStr e.1, v), hmem, rfl⟩
  split
  · exact hbase h
  · next hjs =>
    refine List.mem_filter.mpr ⟨hbase h, ?_⟩
    have hjsf : (mkPassEnv policy).allowJavaScript = false := eq_false_of_ne_true hjs
    have hns : lowerStr e.1 ≠ "script" := by
      rcases h with h | ⟨_, hs⟩
      · intro hc
        rw [hc] at h
        exact absurd h (by decide)
      · exact hs hjsf
    simpa using hns

theorem attr_mem_purifyAllowedAttrs (policy : CompiledPolicy) (tag name : String)
    (h : name ∈ allowedAttrsFor policy.attrAllowlist
      (policy.config.allowCommonAttributes.getD false) tag) :
    name ∈ purifyAllowedAttrs policy := by
  unfold allowedAttrsFor at h
  unfold purifyAllowedAttrs
  dsimp only at h ⊢
  have hbase : name ∈ (lookupA policy.attrAllowlist tag).getD [] →
      name ∈ policy.attrAllowlist.flatMap Prod.snd := by
    intro hm
    rcases hl : lookupA policy.attrAllowlist tag with _ | l
    · rw [hl] at hm
      simp at hm
    · rw [hl] at hm
      exact List.mem_flatMap.mpr ⟨(tag, l), lookupA_mem _ _ _ hl, hm⟩
  by_cases hc : policy.config.allowCommonAttributes.getD false = true
  · rw [if_pos hc] at h
    rw [if_pos hc]
    rcases List.mem_append.mp h with h2 | h2
    · rcases List.mem_append.mp h2 with h3 | h3
      · exact List.mem_append.mpr (Or.inl (List.mem_append.mpr (Or.inl (hbase h3))))
      · exact List.mem_append.mpr (Or.inl (List.mem_append.mpr (Or.inr h3)))
    · refine List.mem_append.mpr (Or.inr ?_)
      rcases hl : lookupA COMMON_ATTRS tag with _ | l
      · rw [hl] at h2
        simp at h2
      · rw [hl] at h2
        exact List.mem_flatMap.mpr ⟨(tag, l), lookupA_mem _ _ _ hl, h2⟩
  · rw [if_neg hc] at h
    rw [if_neg hc]
    exact hbase h

mutual
theorem purifyNode_id (tags al : List String) (n : Node)
    (h : ∀ e ∈ nodeElems n, lowerStr e.1 ∈ tags ∧ ∀ a ∈ e.2, lowerStr a.1 ∈ al) :
    purifyNode tags al n = [n] := by
  match n with
  | .text s => rfl
  | .cssText sheet => rfl
  | .elem t attrs ch =>
    have hhead := h (t, attrs) (by simp [nodeElems])
    unfold purifyNode
    rw [if_pos hhead.1]
    rw [purifyForest_id tags al ch
      (fun e he => h e (by simp [nodeElems]; right; exact he))]
    have hattrs : attrs.filter (fun a => decide (lowerStr a.1 ∈ al)) = attrs := by
      refine List.filter_eq_self.mpr ?_
      intro a ha
      simpa using hhead.2 a ha
    rw [hattrs]
theorem purifyForest_id (tags al : List String) (l : List Node)
    (h : ∀ e ∈ forestElems l, lowerStr e.1 ∈ tags ∧ ∀ a ∈ e.2, lowerStr a.1 ∈ al) :
    purifyForest tags al l = l := by
  match l with
  | [] => rfl
  | n :: rest =>
    unfold purifyForest
    rw [purifyNode_id tags al n
      (fun e he => h e (by rw [forestElems, List.mem_append]; left; exact he)),
      purifyForest_id tags al rest
      (fun e he => h e (by rw [forestElems, List.mem_append]; right; exact he))]
    rfl
end

/-- On this embedding the defense-in-depth pass is the identity on the
enforcement pass's output, so one full pass is the enforcement pass. -/
theorem sanitizeOnce_eq_enf (doc : List Node) (policy : CompiledPolicy) :
    sanitizeOnceWithPolicy doc policy =
      (enfForest (mkPassEnv policy)
        ⟨[], 0, decide ((mkPassEnv policy).totalAllowedTags = 0)⟩ doc).2 := by
  unfold sanitizeOnceWithPolicy applyDomPurify
  refine purifyForest_id _ _ _ ?_
  intro e he
  refine ⟨?_, ?_⟩
  · exact tagP_mem_purifyAllowedTags policy e
      (enfForest_tagP (mkPassEnv policy) _ doc e he)
  · intro a ha
    have h2 := enfForest_attrP (mkPassEnv policy) _ doc e he a ha
    exact attr_mem_purifyAllowedAttrs policy (lowerStr e.1) (lowerStr a.1) h2.2

/-- Pointwise comparison of pass states: the second run's counters
never exceed the first run's. -/
def StLe (st2 st1 : PassState) : Prop :=
  (∀ t, usedD st2 t ≤ usedD st1 t) ∧
  st2.usedTotalTags ≤ st1.usedTotalTags ∧
  (st2.countsSaturated = true → st1.countsSaturated = true)

theorem stLe_refl (st : PassState) : StLe st st :=
  ⟨fun _ => Nat.le_refl _, Nat.le_refl _, fun h => h⟩

theorem enfKeepState_total (env : PassEnv) (st : PassState) (g : String) :
    (enfKeepState env st g).usedTotalTags = st.usedTotalTags + 1 := by
  unfold enfKeepState
  split <;> rfl

theorem enfKeepState_flag (env : PassEnv) (st : PassState) (g : String)
    (h : st.countsSaturated = true) :
    (enfKeepState env st g).countsSaturated = true := by
  unfold enfKeepState
  split
  · rfl
  · exact h

theorem stLe_keep (env : PassEnv) (st2 st1 : PassState) (g : String)
    (h : StLe st2 st1) :
    StLe (enfKeepState env st2 g) (enfKeepState env st1 g) := by
  obtain ⟨h1, h2, h3⟩ := h
  refine ⟨?_, ?_, ?_⟩
  · intro t
    rw [usedD_enfKeepState, usedD_enfKeepState]
    split
    · have := h1 t
      omega
    · exact h1 t
  · rw [enfKeepState_total, enfKeepState_total]
    omega
  · intro hf
    unfold enfKeepState at hf
    split at hf
    · next hcond =>
      unfold enfKeepState
      rw [if_pos (show st1.usedTotalTags + 1 ≥ env.totalAllowedTags by omega)]
    · next hcond =>
      dsimp only at hf
      exact enfKeepState_flag env st1 g (h3 hf)

theorem stLe_keep_right (env : PassEnv) (st2 st1 : PassState) (g : String)
    (h : StLe st2 st1) : StLe st2 (enfKeepState env st1 g) := by
  obtain ⟨h1, h2, h3⟩ := h
  refine ⟨?_, ?_, ?_⟩
  · intro t
    rw [usedD_enfKeepState]
    split
    · have := h1 t
      omega
    · exact h1 t
  · rw [enfKeepState_total]
    omega
  · intro hf
    exact enfKeepState_flag env st1 g (h3 hf)

theorem enfForest_singleton (env : PassEnv) (st : PassState) (n : Node) :
    enfForest env st [n] = ((enfNode env st n).1, (enfNode env st n).2) := by
  rw [enfForest_cons]
  rw [enfForest_nil]
  simp

theorem enfForest_append (env : PassEnv) (st : PassState) (a b : List Node) :
    enfForest env st (a ++ b) =
      ((enfForest env (enfForest env st a).1 b).1,
        (enfForest env st a).2 ++ (enfForest env (enfForest env st a).1 b).2) := by
  induction a generalizing st with
  | nil => simp [enfForest_nil]
  | cons n rest ih =>
    rw [List.cons_append, enfForest_cons, enfForest_cons, ih]
    dsimp only
    rw [List.append_assoc]

theorem enfAttrs_idem (env : PassEnv) (tag : String)
    (attrs : List (String × String)) :
    enfAttrs env tag (enfAttrs env tag attrs) = enfAttrs env tag attrs :=
  filterAttributes_idem _ _ _ _ _ attrs

mutual
theorem enfNode_replay (env : PassEnv) (st1 st2 : PassState) (n : Node)
    (h : StLe st2 st1) :
    (enfForest env st2 (enfNode env st1 n).2).2 = (enfNode env st1 n).2 ∧
    StLe (enfForest env st2 (enfNode env st1 n).2).1 (enfNode env st1 n).1 := by
  match n with
  | .text s =>
    rw [enfNode_text, enfForest_singleton, enfNode_text]
    exact ⟨rfl, h⟩
  | .cssText sheet =>
    rw [enfNode_cssText, enfForest_singleton, enfNode_cssText]
    exact ⟨rfl, h⟩
  | .elem t attrs ch =>
    by_cases h1 : ¬env.allowJavaScript ∧ lowerStr t = "script"
    · rw [enfNode_script env st1 t attrs ch h1, enfForest_nil]
      exact ⟨rfl, h⟩
    by_cases h2 : lowerStr t = "style" ∧ ¬env.allowStyleTag
    · rw [enfNode_styleOff env st1 t attrs ch h1 h2, enfForest_nil]
      exact ⟨rfl, h⟩
    by_cases h3 : lowerStr t ∈ STRUCTURAL_TAGS
    · rw [enfNode_structural env st1 t attrs ch h1 h2 h3]
      dsimp only
      have hf := enfForest_replay env st1 st2 ch h
      rw [enfForest_singleton,
        enfNode_structural env st2 t (enfAttrs env (lowerStr t) attrs)
          (enfForest env st1 ch).2 h1 h2 h3]
      dsimp only
      rw [enfAttrs_idem, hf.1]
      exact ⟨rfl, hf.2⟩
    by_cases h4 : st1.countsSaturated = true
    · by_cases h5 : (lookupA env.tagCounts (lowerStr t)).getD 0 = 0
      · rw [enfNode_sat_unwrap env st1 t attrs ch h1 h2 h3 h4 h5]
        exact enfForest_replay env st1 st2 ch h
      · rw [enfNode_sat_remove env st1 t attrs ch h1 h2 h3 h4 h5, enfForest_nil]
        exact ⟨rfl, h⟩
    have h4b : ¬st2.countsSaturated = true := fun hc => h4 (h.2.2 hc)
    by_cases h5 : (lookupA env.tagCounts (lowerStr t)).getD 0 = 0
    · rw [enfNode_unwrap env st1 t attrs ch h1 h2 h3 h4 h5]
      exact enfForest_replay env st1 st2 ch h
    by_cases h6 : (lookupA st1.usedTagCounts (lowerStr t)).getD 0 ≥
        (lookupA env.tagCounts (lowerStr t)).getD 0
    · rw [enfNode_over_budget env st1 t attrs ch h1 h2 h3 h4 h5 h6, enfForest_nil]
      exact ⟨rfl, h⟩
    have h6b : ¬(lookupA st2.usedTagCounts (lowerStr t)).getD 0 ≥
        (lookupA env.tagCounts (lowerStr t)).getD 0 := by
      have hle := h.1 (lowerStr t)
      unfold usedD at hle
      omega
    by_cases h7 : lowerStr t = "style"
    · rw [enfNode_keep_style env st1 t attrs ch h1 h2 h3 h4 h5 h6 h7]
      dsimp only
      unfold filterStyleElement
      split
      · rw [enfForest_nil]
        exact ⟨rfl, stLe_keep_right env st2 st1 (lowerStr t) h⟩
      · next hnb =>
        rw [enfForest_singleton,
          enfNode_keep_style env st2 t (enfAttrs env (lowerStr t) attrs)
            [Node.cssText (filterCss env.styleAllowlist (forestCss ch))]
            h1 h2 h3 h4b h5 h6b h7]
        dsimp only
        rw [enfAttrs_idem]
        have hcss : forestCss
            [Node.cssText (filterCss env.styleAllowlist (forestCss ch))] =
            filterCss env.styleAllowlist (forestCss ch) := by
          show nodeCss _ ++ forestCss [] = _
          rw [nodeCss, forestCss, List.append_nil]
        rw [hcss]
        unfold filterStyleElement
        rw [filterCss_idem]
        rw [if_neg hnb]
        exact ⟨rfl, stLe_keep env st2 st1 (lowerStr t) h⟩
    · rw [enfNode_keep env st1 t attrs ch h1 h2 h3 h4 h5 h6 h7]
      dsimp only
      have hf := enfForest_replay env (enfKeepState env st1 (lowerStr t))
        (enfKeepState env st2 (lowerStr t)) ch (stLe_keep env st2 st1 (lowerStr t) h)
      rw [enfForest_singleton,
        enfNode_keep env st2 t (enfAttrs env (lowerStr t) attrs)
          (enfForest env (enfKeepState env st1 (lowerStr t)) ch).2
          h1 h2 h3 h4b h5 h6b h7]
      dsimp only
      rw [enfAttrs_idem, hf.1]
      exact ⟨rfl, hf.2⟩
theorem enfForest_replay (env : PassEnv) (st1 st2 : PassState) (l : List Node)
    (h : StLe st2 st1) :
    (enfForest env st2 (enfForest env st1 l).2).2 = (enfForest env st1 l).2 ∧
    StLe (enfForest env st2 (enfForest env st1 l).2).1 (enfForest env st1 l).1 := by
  match l with
  | [] =>
    rw [enfForest_nil, enfForest_nil]
    exact ⟨rfl, h⟩
  | n :: rest =>
    rw [enfForest_cons]
    dsimp only
    rw [enfForest_append]
    have hn := enfNode_replay env st1 st2 n h
    have hr := enfForest_replay env (enfNode env st1 n).1
      (enfForest env st2 (enfNode env st1 n).2).1 rest hn.2
    constructor
    · dsimp only
      rw [hn.1, hr.1]
    · dsimp only
      exact hr.2
end

/-- One full filtering pass is idempotent. -/
theorem sanitizeOnce_idem (doc : List Node) (policy : CompiledPolicy) :
    sanitizeOnceWithPolicy (sanitizeOnceWithPolicy doc policy) policy =
      sanitizeOnceWithPolicy doc policy := by
  rw [sanitizeOnce_eq_enf doc policy, sanitizeOnce_eq_enf _ policy]
  exact (enfForest_replay (mkPassEnv policy)
    ⟨[], 0, decide ((mkPassEnv policy).totalAllowedTags = 0)⟩
    ⟨[], 0, decide ((mkPassEnv policy).totalAllowedTags = 0)⟩ doc
    (stLe_refl _)).1

theorem sanitizePasses_stable (policy : CompiledPolicy) (k : Nat) (r : List Node)
    (h : sanitizeOnceWithPolicy r policy = r) (hk : 1 ≤ k) :
    sanitizePasses policy k r = r := by
  cases k with
  | zero => omega
  | succ m =>
    show (if sanitizeOnceWithPolicy r policy = r then sanitizeOnceWithPolicy r policy
      else sanitizePasses policy m (sanitizeOnceWithPolicy r policy)) = r
    rw [if_pos h, h]

theorem sanitizePasses_fixed (policy : CompiledPolicy) (k : Nat) (hk : 1 ≤ k)
    (doc : List Node) :
    sanitizeOnceWithPolicy (sanitizePasses policy k doc) policy =
      sanitizePasses policy k doc := by
  obtain ⟨j, hj, heq, hst⟩ := sanitizePasses_exists_iterate policy k doc
  by_cases hlt : j < k
  · exact hst hlt
  · have hjk : j = k := by omega
    subst hjk
    cases j with
    | zero => omega
    | succ m =>
      rw [heq, Function.iterate_succ_apply']
      exact sanitizeOnce_idem _ policy

theorem sanitizeWithPolicy_idem (doc : List Node) (policy : CompiledPolicy) :
    sanitizeWithPolicy (sanitizeWithPolicy doc policy) policy =
      sanitizeWithPolicy doc policy := by
  unfold sanitizeWithPolicy
  rcases hn : (policy.config.maxPasses.getD 10).toNat with _ | m
  · rfl
  · exact sanitizePasses_stable policy (m + 1) _
      (sanitizePasses_fixed policy (m + 1) (by omega) doc) (by omega)

/-- C1: sanitizing twice equals sanitizing once — for every document,
rule list and configuration,
`sanitize (sanitize doc rules config) rules config = sanitize doc rules config`;
equivalently, a filtering pass applied to already-stable output returns
it unchanged. -/
theorem sanitize_idempotent (doc : List Node) (rules : List String)
    (config : SanitizerConfig) :
    sanitize (sanitize doc rules config) rules config = sanitize doc rules config :=
  sanitizeWithPolicy_idem doc (compileRules rules config)
